import Mathlib

/-!
# Verification development for `src/system_topology.cc`

A shallow embedding of the affinity-binding code.

Conventions of the embedding.

* C++ `int` values are mathematical integers (`Int`); `/` and `%` on `int` are C++
  truncating division and remainder, `Int.tdiv` and `Int.tmod`.  Signed overflow is undefined
  behaviour in C++ and lies outside the model.
* The one place where the source mixes an unsigned 64-bit value with `int` (the cache stride)
  is embedded with the explicit conversions `to_uint64` and `to_int`.
* A failed `assert` is the result `none`.
* Counters that only index tables (process numbers, host numbers) are natural numbers.
-/

namespace SystemTopology

/-! ## Helpers (lines 52-69) -/

/-- The helper `divup` (lines 53-58): `(a+b-1)/b` guarded by `assert(a>=0)` and
`assert(b>0)`. -/
def divup (a b : Int) : Option Int :=
  if 0 ≤ a ∧ 0 < b then some ((a + b - 1).tdiv b) else none

/-- The loop of `is_pow2` (lines 63-66), with a step budget. -/
def is_pow2_loop : Nat → Int → Bool
  | 0, _ => false
  | fuel + 1, a =>
    if a = 1 then true
    else if a.tmod 2 ≠ 0 then false
    else is_pow2_loop fuel (a.tdiv 2)

/-- The helper `is_pow2` (lines 60-68).  The loop halves a positive `a`, so `a` steps (plus the
final test) are always enough. -/
def is_pow2 (a : Int) : Bool :=
  if a ≤ 0 then false else is_pow2_loop (a.toNat + 1) a

/-! ## Host mapping record (lines 75-81) -/

/-- The record `mpi_host_mapping_t` (lines 75-81). -/
structure mpi_host_mapping_t where
  mpi_num_procs : Int
  mpi_proc_num : Int
  mpi_num_hosts : Int
  mpi_host_num : Int
  mpi_num_procs_on_host : Int
  mpi_proc_num_on_host : Int
  deriving DecidableEq, Repr

/-! ## Host mapping resolver: the computation on the root process (lines 106-129, 137-165) -/

/-- The tables the root process fills in its first loop (lines 106-113): `hostname2host` is the
`map<string,int>` as an association list, `host2procs1` the `map<int, list<int>>` as a map from
host number to the list of processes, empty where the map has no entry. -/
structure host_tables where
  mpi_num_hosts : Nat
  hostname2host : List (String × Nat)
  hostnames : List String
  host_byproc : List Nat
  host2procs1 : Nat → List Nat

/-- The body of the first loop (lines 115-123).  `procnames` is the gathered table of host
strings, indexed by process number. -/
def host_loop_body (procnames : List String) (st : host_tables) (proc : Nat) : host_tables :=
  let hostname := procnames.getD proc ""
  let st1 : host_tables :=
    if (st.hostname2host.lookup hostname).isNone then
      { st with
        hostname2host := (hostname, st.mpi_num_hosts) :: st.hostname2host
        hostnames := st.hostnames ++ [hostname]
        mpi_num_hosts := st.mpi_num_hosts + 1 }
    else st
  let host := (st1.hostname2host.lookup hostname).getD 0
  { st1 with
    host_byproc := st1.host_byproc.set proc host
    host2procs1 := Function.update st1.host2procs1 host (st1.host2procs1 host ++ [proc]) }

/-- The first loop of the root process (lines 109-124), over `proc = 0, ..., mpi_num_procs-1`. -/
def host_loop (procnames : List String) : host_tables :=
  (List.range procnames.length).foldl (host_loop_body procnames)
    { mpi_num_hosts := 0
      hostname2host := []
      hostnames := []
      host_byproc := List.replicate procnames.length 0
      host2procs1 := fun _ => [] }

/-- The tables the root process fills in its second loop (lines 137-143). -/
structure rank_tables where
  num_procs_on_host_byhost : List Nat
  num_procs_on_host_byproc : List Nat
  proc_num_on_host_byproc : List Nat
  deriving DecidableEq, Repr

/-- The body of the inner loop (lines 160-162). -/
def rank_inner_body (host_procs : List Nat) (num_procs_on_host : Nat) (st : rank_tables)
    (proc_num_on_host : Nat) : rank_tables :=
  let proc := host_procs.getD proc_num_on_host 0
  { st with
    num_procs_on_host_byproc := st.num_procs_on_host_byproc.set proc num_procs_on_host
    proc_num_on_host_byproc := st.proc_num_on_host_byproc.set proc proc_num_on_host }

/-- The body of the loop over hosts (lines 145-163): the processes of the host are copied,
sorted ascending, counted and numbered. -/
def rank_outer_body (host2procs1 : Nat → List Nat) (st : rank_tables) (host : Nat) :
    rank_tables :=
  let host_procs1 := host2procs1 host
  let host_procs := List.insertionSort (fun a b : Nat => a ≤ b) host_procs1
  let num_procs_on_host := host_procs.length
  let st1 : rank_tables :=
    { st with
      num_procs_on_host_byhost := st.num_procs_on_host_byhost.set host num_procs_on_host }
  (List.range num_procs_on_host).foldl (rank_inner_body host_procs num_procs_on_host) st1

/-- The second loop of the root process (lines 140-164), over `host = 0, ..., mpi_num_hosts-1`. -/
def rank_loop (mpi_num_procs mpi_num_hosts : Nat) (host2procs1 : Nat → List Nat) : rank_tables :=
  (List.range mpi_num_hosts).foldl (rank_outer_body host2procs1)
    { num_procs_on_host_byhost := List.replicate mpi_num_hosts 0
      num_procs_on_host_byproc := List.replicate mpi_num_procs 0
      proc_num_on_host_byproc := List.replicate mpi_num_procs 0 }

/-- The method `mpi_host_mapping_t::load` of the MPI build (lines 85-174) as seen by process
`mpi_proc_num`: the host strings of all processes are gathered on the root, the root fills its
tables, `mpi_num_hosts` is broadcast and each process receives its own entry of the three
per-process tables. -/
def mpi_host_mapping_t.load (procnames : List String) (mpi_proc_num : Nat) :
    mpi_host_mapping_t :=
  let t := host_loop procnames
  let r := rank_loop procnames.length t.mpi_num_hosts t.host2procs1
  { mpi_num_procs := (procnames.length : Int)
    mpi_proc_num := (mpi_proc_num : Int)
    mpi_num_hosts := (t.mpi_num_hosts : Int)
    mpi_host_num := ((t.host_byproc.getD mpi_proc_num 0 : Nat) : Int)
    mpi_num_procs_on_host := ((r.num_procs_on_host_byproc.getD mpi_proc_num 0 : Nat) : Int)
    mpi_proc_num_on_host := ((r.proc_num_on_host_byproc.getD mpi_proc_num 0 : Nat) : Int) }

/-- The method `mpi_host_mapping_t::load` of the build without MPI (lines 178-186). -/
def mpi_host_mapping_t.load_no_mpi : mpi_host_mapping_t :=
  { mpi_num_procs := 1
    mpi_proc_num := 0
    mpi_num_hosts := 1
    mpi_host_num := 0
    mpi_num_procs_on_host := 1
    mpi_proc_num_on_host := 0 }

/-! ## Thread binding (lines 330-400) -/

/-- The values one thread computes in the body of the binding loop (lines 369-372). -/
structure thread_target where
  thread_num : Int
  core_num : Int
  pu_num : Int
  deriving DecidableEq, Repr

/-- The body of the parallel region of `set_bindings` (lines 344-372) as run by the thread whose
`omp_get_thread_num()` is `thread_num_in_proc`.  `num_cores` and `num_pus` are the object counts
the topology reports at the core and PU depths, `omp_num_threads` is `omp_get_num_threads()`.
The result is the core and PU index the thread resolves and binds to (lines 373-386). -/
def set_bindings (num_cores num_pus : Int) (host_mapping : mpi_host_mapping_t)
    (omp_num_threads thread_num_in_proc : Int) : Option thread_target :=
  if ¬ (0 < num_cores) then none
  else if ¬ (0 < num_pus) then none
  else if ¬ (num_pus.tmod num_cores = 0) then none
  else
    let smt_multiplier := num_pus.tdiv num_cores
    let num_threads_in_proc := omp_num_threads
    let num_procs := host_mapping.mpi_num_procs_on_host
    let num_threads := num_threads_in_proc * num_procs
    match divup num_threads num_cores with
    | none => none
    | some num_smt_threads =>
      let proc_num := host_mapping.mpi_proc_num_on_host
      let thread_offset := num_threads_in_proc * proc_num
      let thread_num := thread_offset + thread_num_in_proc
      let core_num := thread_num.tdiv num_smt_threads
      let pu_offset := thread_num.tmod num_smt_threads
      let pu_num := core_num * smt_multiplier + pu_offset
      some { thread_num := thread_num, core_num := core_num, pu_num := pu_num }

/-! ## Node topology information (lines 406-497) -/

/-- The lines `node_topology_info_t::load` prints. -/
inductive output_line where
  /-- Line 438: "There are %d PUs per core (aka hardware SMT threads)". -/
  | pus_per_core (smt_multiplier : Int)
  /-- Line 446: "There are %d threads per core (aka SMT threads used)". -/
  | threads_per_core (num_smt_threads : Int)
  /-- Line 449: "WARNING: This is larger than the number of hardware SMT threads". -/
  | warning_larger_than_hardware
  /-- Line 452: "WARNING: This does not evenly divide the number of threads per process". -/
  | warning_not_evenly_divide
  /-- Lines 476-484: the description of one cache level. -/
  | cache (size : Nat) (linesize associativity stride : Int)
  deriving DecidableEq, Repr

/-- The first part of `node_topology_info_t::load` (lines 426-454): the number of SMT threads
used and the lines printed.  `omp_max_threads` is `omp_get_max_threads()`. -/
def load_smt_threads (num_cores num_pus : Int) (mpi_host_mapping : mpi_host_mapping_t)
    (omp_max_threads : Int) : Option (Int × List output_line) :=
  if ¬ (0 < num_cores) then none
  else if ¬ (0 < num_pus) then none
  else if ¬ (num_pus.tmod num_cores = 0) then none
  else
    let smt_multiplier := num_pus.tdiv num_cores
    let out := [output_line.pus_per_core smt_multiplier]
    let num_threads_in_proc := omp_max_threads
    let num_procs := mpi_host_mapping.mpi_num_procs_on_host
    let num_threads := num_threads_in_proc * num_procs
    match divup num_threads num_cores with
    | none => none
    | some num_smt_threads =>
      let out := out ++ [output_line.threads_per_core num_smt_threads]
      let out :=
        if num_smt_threads > smt_multiplier then out ++ [output_line.warning_larger_than_hardware]
        else out
      let out :=
        if num_threads_in_proc.tmod num_smt_threads ≠ 0 then
          out ++ [output_line.warning_not_evenly_divide]
        else out
      if ¬ (0 < num_smt_threads) then none
      else some (num_smt_threads, out)

/-! ## Cache information (lines 408-419, 456-494) -/

/-- Conversion of an `int` to the unsigned 64-bit type: the usual arithmetic conversion applied
to `associativity` in `cache_attr.size / cache_attr.associativity` (line 475). -/
def to_uint64 (x : Int) : Nat := (x % 2 ^ 64).toNat

/-- Conversion of an unsigned 64-bit value to the 32-bit `int` that `cache_stride` is declared
as (line 472): reduction modulo `2^32` into the two's complement range. -/
def to_int (n : Nat) : Int :=
  if n % 2 ^ 32 < 2 ^ 31 then ((n % 2 ^ 32 : Nat) : Int)
  else ((n % 2 ^ 32 : Nat) : Int) - 2 ^ 32

/-- Modelled from the spec: the attributes the topology service reports for one cache
(`hwloc_cache_attr_s`, declared in the library header, which is not among the sources): the size
in bytes (unsigned 64-bit), the line size in bytes and the associativity (signed `int`: `0` is
unknown, negative is fully associative). -/
structure hwloc_cache_attr_s where
  size : Nat
  linesize : Int
  associativity : Int
  deriving DecidableEq, Repr

/-- The record `cache_info_t` (lines 410-413). -/
structure cache_info_t where
  linesize : Int
  stride : Int
  deriving DecidableEq, Repr

/-- The record `node_topology_info_t` (lines 408-418). -/
structure node_topology_info_t where
  num_smt_threads : Int
  cache_info : List cache_info_t
  deriving DecidableEq, Repr

/-- The expression initialising `cache_stride` (lines 472-475). -/
def cache_stride (cache_attr : hwloc_cache_attr_s) : Int :=
  if cache_attr.associativity = 0 then 0
  else to_int (cache_attr.size / to_uint64 cache_attr.associativity)

/-- One iteration of the cache loop of `load` (lines 465-493) on the attributes of the first
cache of the level: the entry pushed onto `cache_info` and the line printed. -/
def load_cache_level (cache_attr : hwloc_cache_attr_s) : Option (cache_info_t × output_line) :=
  let stride := cache_stride cache_attr
  let line := output_line.cache cache_attr.size cache_attr.linesize cache_attr.associativity stride
  if ¬ (cache_attr.linesize ≥ 0) then none
  else if ¬ (cache_attr.linesize = 0 ∨ is_pow2 cache_attr.linesize = true) then none
  else if ¬ (stride ≥ 0) then none
  else some ({ linesize := cache_attr.linesize, stride := stride }, line)

/-- The cache loop of `load` (lines 456-494).  `caches` lists the attributes of the first data
cache of levels 1, 2, ... up to the last level the topology reports. -/
def load_cache_info : List hwloc_cache_attr_s → Option (List cache_info_t × List output_line)
  | [] => some ([], [])
  | cache_attr :: rest =>
    match load_cache_level cache_attr with
    | none => none
    | some (new_cache_info, line) =>
      match load_cache_info rest with
      | none => none
      | some (cache_info, lines) => some (new_cache_info :: cache_info, line :: lines)

/-- The method `node_topology_info_t::load` (lines 422-495). -/
def node_topology_info_t.load (num_cores num_pus : Int) (mpi_host_mapping : mpi_host_mapping_t)
    (omp_max_threads : Int) (caches : List hwloc_cache_attr_s) :
    Option (node_topology_info_t × List output_line) :=
  match load_smt_threads num_cores num_pus mpi_host_mapping omp_max_threads with
  | none => none
  | some (num_smt_threads, out) =>
    match load_cache_info caches with
    | none => none
    | some (cache_info, lines) =>
      some ({ num_smt_threads := num_smt_threads, cache_info := cache_info }, out ++ lines)

/-! ## Public queries (lines 501-519) -/

/-- The query `hwloc_GetNumSMTThreads` (lines 501-505). -/
def hwloc_GetNumSMTThreads (node_topology_info : node_topology_info_t) : Int :=
  node_topology_info.num_smt_threads

/-- The result of `hwloc_GetCacheInfo`: the two caller buffers after the call and the value
returned. -/
structure GetCacheInfo_result where
  linesizes : Nat → Int
  strides : Nat → Int
  ret : Int

/-- The query `hwloc_GetCacheInfo` (lines 507-519).  The caller buffers `linesizes` and
`strides` are maps from index to value; `CCTK_INT` values are integers. -/
def hwloc_GetCacheInfo (node_topology_info : node_topology_info_t)
    (linesizes strides : Nat → Int) (max_num_cache_levels : Int) : GetCacheInfo_result :=
  let num_levels := min max_num_cache_levels (node_topology_info.cache_info.length : Int)
  let bufs := (List.range num_levels.toNat).foldl
    (fun (bufs : (Nat → Int) × (Nat → Int)) level =>
      (Function.update bufs.1 level (node_topology_info.cache_info.getD level ⟨0, 0⟩).linesize,
       Function.update bufs.2 level (node_topology_info.cache_info.getD level ⟨0, 0⟩).stride))
    (linesizes, strides)
  { linesizes := bufs.1, strides := bufs.2, ret := (node_topology_info.cache_info.length : Int) }

/-! ## Reference quantities -/

/-- The quotient `divup` returns, written with floor division. -/
def smt_used (num_threads num_cores : Int) : Int := (num_threads + num_cores - 1) / num_cores

/-- The specification's `smtThreadsUsed = ceil(totalThreads / coreCount)` with
`totalThreads = threadsPerProcess * countOnHost`, the ceiling of the exact quotient. -/
def spec_smtThreadsUsed (threadsPerProcess countOnHost coreCount : Int) : Int :=
  ⌈((threadsPerProcess * countOnHost : Int) : ℚ) / ((coreCount : Int) : ℚ)⌉

/-- The specification's `globalThreadNum = p * threadsPerProcess + t`. -/
def spec_globalThreadNum (p threadsPerProcess t : Int) : Int := p * threadsPerProcess + t

/-- The specification's `coreNum = globalThreadNum div smtThreadsUsed`. -/
def spec_coreNum (g smtThreadsUsed : Int) : Int := g / smtThreadsUsed

/-- The specification's `puNum = coreNum * pusPerCore + (globalThreadNum mod smtThreadsUsed)`. -/
def spec_puNum (g smtThreadsUsed pusPerCore : Int) : Int :=
  spec_coreNum g smtThreadsUsed * pusPerCore + g % smtThreadsUsed

/-- The number of distinct host strings whose first occurrence in `procnames` is at a rank
lower than `k`: the ranks `q < k` that are the first occurrence of their own string. -/
def hosts_before (procnames : List String) (k : Nat) : Nat :=
  ((List.range k).filter
    (fun q => procnames.indexOf (procnames.getD q "") = q)).length

/-- The processes whose host string is `s`, in ascending rank. -/
def host_members (procnames : List String) (s : String) : List Nat :=
  (List.range procnames.length).filter (fun q => procnames.getD q "" = s)

/-- The invariant of the first loop of the root process after `n` iterations: the host counter,
the name map, the per-process host table and the per-host process lists describe the first `n`
processes. -/
def host_loop_inv (procnames : List String) (n : Nat) (st : host_tables) : Prop :=
  st.mpi_num_hosts = hosts_before procnames n ∧
  (∀ s, st.hostname2host.lookup s =
    if procnames.indexOf s < n then some (hosts_before procnames (procnames.indexOf s))
    else none) ∧
  st.host_byproc.length = procnames.length ∧
  (∀ p, p < n → st.host_byproc.getD p 0 =
    hosts_before procnames (procnames.indexOf (procnames.getD p ""))) ∧
  (∀ h, st.host2procs1 h = (List.range n).filter
    (fun p => hosts_before procnames (procnames.indexOf (procnames.getD p "")) = h))

/-! # Theorems -/

/-! ## The step budget of `is_pow2` -/

/-- The step budget of `is_pow2` is never exhausted: for a positive `a`, any budget above `a`
gives the result of the budget `a + 1`. -/
theorem is_pow2_loop_fuel (fuel : Nat) :
    ∀ (a : Int) (k : Nat), 0 < a → a.toNat ≤ fuel →
      is_pow2_loop (fuel + 1 + k) a = is_pow2_loop (fuel + 1) a := by
  induction fuel with
  | zero =>
    intro a k ha hf
    omega
  | succ m ih =>
    intro a k ha hf
    have e1 : m + 1 + 1 + k = (m + 1 + k) + 1 := by omega
    rw [e1]
    simp only [is_pow2_loop]
    by_cases h1 : a = 1
    · simp [h1]
    · by_cases h2 : a.tmod 2 ≠ 0
      · simp [h1, h2]
      · simp only [h1, h2, if_false]
        have hd : a.tdiv 2 = a / 2 := Int.tdiv_eq_ediv (by omega) (by omega)
        exact ih (a.tdiv 2) k (by rw [hd]; omega) (by rw [hd]; omega)

/-! ## Arithmetic of `divup` -/

theorem divup_eq (a b : Int) (ha : 0 ≤ a) (hb : 0 < b) :
    divup a b = some (smt_used a b) := by
  unfold divup smt_used
  rw [if_pos ⟨ha, hb⟩, Int.tdiv_eq_ediv (by omega) (by omega)]

theorem smt_used_mul_ge (a b : Int) (hb : 0 < b) : a ≤ smt_used a b * b := by
  unfold smt_used
  have h1 := Int.ediv_add_emod (a + b - 1) b
  have h2 := Int.emod_lt_of_pos (a + b - 1) hb
  have h3 := Int.emod_nonneg (a + b - 1) (ne_of_gt hb)
  nlinarith

theorem smt_used_mul_lt (a b : Int) (hb : 0 < b) : smt_used a b * b < a + b := by
  unfold smt_used
  have h1 := Int.ediv_add_emod (a + b - 1) b
  have h3 := Int.emod_nonneg (a + b - 1) (ne_of_gt hb)
  nlinarith

theorem smt_used_pos (a b : Int) (ha : 1 ≤ a) (hb : 0 < b) : 0 < smt_used a b := by
  have h := smt_used_mul_ge a b hb
  by_contra hc
  have : smt_used a b ≤ 0 := by omega
  nlinarith

theorem smt_used_least (a b n : Int) (hb : 0 < b) (hn : a ≤ n * b) : smt_used a b ≤ n := by
  have h := smt_used_mul_lt a b hb
  by_contra hc
  have : n + 1 ≤ smt_used a b := by omega
  nlinarith

theorem smt_used_le_iff (a b n : Int) (hb : 0 < b) : smt_used a b ≤ n ↔ a ≤ n * b := by
  constructor
  · intro h
    have := smt_used_mul_ge a b hb
    nlinarith
  · exact smt_used_least a b n hb

theorem smt_used_eq_ceil (T C b : Int) (hb : 0 < b) :
    smt_used (T * C) b = spec_smtThreadsUsed T C b := by
  unfold spec_smtThreadsUsed
  symm
  rw [Int.ceil_eq_iff]
  have hbq : (0 : ℚ) < (b : ℚ) := by exact_mod_cast hb
  have h1 := smt_used_mul_ge (T * C) b hb
  have h2 := smt_used_mul_lt (T * C) b hb
  constructor
  · rw [lt_div_iff₀ hbq]
    have : ((smt_used (T * C) b * b : Int) : ℚ) < ((T * C + b : Int) : ℚ) := by exact_mod_cast h2
    push_cast at this ⊢
    linarith
  · rw [div_le_iff₀ hbq]
    exact_mod_cast h1

/-- Uniqueness of quotient and remainder. -/
theorem quot_rem_unique (q1 r1 q2 r2 m : Int) (h1 : 0 ≤ r1) (h1m : r1 < m) (h2 : 0 ≤ r2)
    (h2m : r2 < m) (h : q1 * m + r1 = q2 * m + r2) : q1 = q2 ∧ r1 = r2 := by
  have hq : q1 = q2 := by
    rcases lt_trichotomy q1 q2 with hlt | heq | hgt
    · exfalso
      have : q1 + 1 ≤ q2 := by omega
      nlinarith
    · exact heq
    · exfalso
      have : q2 + 1 ≤ q1 := by omega
      nlinarith
  subst hq
  exact ⟨rfl, by linarith⟩

/-! ## The binding computation -/

/-- Under the preconditions of the binding engine, `set_bindings` returns, and its result is
given by floor division and the mathematical remainder. -/
theorem set_bindings_eq (coreCount pusPerCore : Int) (hm : mpi_host_mapping_t) (T t : Int)
    (hcore : 0 < coreCount) (hpus : 1 ≤ pusPerCore) (hC : 1 ≤ hm.mpi_num_procs_on_host)
    (hT : 1 ≤ T) (hp : 0 ≤ hm.mpi_proc_num_on_host) (ht : 0 ≤ t) :
    set_bindings coreCount (coreCount * pusPerCore) hm T t =
      some { thread_num := T * hm.mpi_proc_num_on_host + t
             core_num := (T * hm.mpi_proc_num_on_host + t) /
               smt_used (T * hm.mpi_num_procs_on_host) coreCount
             pu_num := (T * hm.mpi_proc_num_on_host + t) /
               smt_used (T * hm.mpi_num_procs_on_host) coreCount * pusPerCore +
               (T * hm.mpi_proc_num_on_host + t) %
               smt_used (T * hm.mpi_num_procs_on_host) coreCount } := by
  have hTC : 1 ≤ T * hm.mpi_num_procs_on_host := by nlinarith
  have hs := smt_used_pos _ _ hTC hcore
  have hg : 0 ≤ T * hm.mpi_proc_num_on_host + t := by nlinarith
  have hpu : 0 < coreCount * pusPerCore := by nlinarith
  have hmod : (coreCount * pusPerCore).tmod coreCount = 0 := by
    rw [Int.tmod_eq_emod (le_of_lt hpu) (le_of_lt hcore)]
    exact Int.mul_emod_right _ _
  have hdiv : (coreCount * pusPerCore).tdiv coreCount = pusPerCore := by
    rw [Int.tdiv_eq_ediv (le_of_lt hpu) (le_of_lt hcore)]
    exact Int.mul_ediv_cancel_left _ (ne_of_gt hcore)
  unfold set_bindings
  simp only [hcore, hpu, hmod, hdiv, not_true_eq_false, if_false,
    divup_eq _ _ (le_trans zero_le_one hTC) hcore,
    Int.tdiv_eq_ediv hg (le_of_lt hs), Int.tmod_eq_emod hg (le_of_lt hs)]

/-- Claim C1.  When the host is not oversubscribed
(`threadsPerProcess * countOnHost ≤ coreCount * pusPerCore`), `set_bindings` returns for every
thread of every process on the host, and two threads that receive the same `pu_num` have the
same rank on the host and the same thread index: the thread-to-PU map is injective. -/
theorem set_bindings_injective (coreCount pusPerCore threadsPerProcess : Int)
    (hm1 hm2 : mpi_host_mapping_t) (t1 t2 : Int)
    (hcore : 0 < coreCount) (hpus : 1 ≤ pusPerCore)
    (hcount : 1 ≤ hm1.mpi_num_procs_on_host)
    (hsame : hm2.mpi_num_procs_on_host = hm1.mpi_num_procs_on_host)
    (hT : 1 ≤ threadsPerProcess)
    (hfit : threadsPerProcess * hm1.mpi_num_procs_on_host ≤ coreCount * pusPerCore)
    (hp1 : 0 ≤ hm1.mpi_proc_num_on_host)
    (hp1c : hm1.mpi_proc_num_on_host < hm1.mpi_num_procs_on_host)
    (hp2 : 0 ≤ hm2.mpi_proc_num_on_host)
    (hp2c : hm2.mpi_proc_num_on_host < hm2.mpi_num_procs_on_host)
    (ht1 : 0 ≤ t1) (ht1T : t1 < threadsPerProcess)
    (ht2 : 0 ≤ t2) (ht2T : t2 < threadsPerProcess) :
    ∃ b1 b2 : thread_target,
      set_bindings coreCount (coreCount * pusPerCore) hm1 threadsPerProcess t1 = some b1 ∧
      set_bindings coreCount (coreCount * pusPerCore) hm2 threadsPerProcess t2 = some b2 ∧
      (b1.pu_num = b2.pu_num →
        hm1.mpi_proc_num_on_host = hm2.mpi_proc_num_on_host ∧ t1 = t2) := by
  have e1 := set_bindings_eq coreCount pusPerCore hm1 threadsPerProcess t1 hcore hpus hcount hT
    hp1 ht1
  have e2 := set_bindings_eq coreCount pusPerCore hm2 threadsPerProcess t2 hcore hpus
    (by rw [hsame]; exact hcount) hT hp2 ht2
  rw [hsame] at e2
  refine ⟨_, _, e1, e2, ?_⟩
  simp only
  intro hpu
  have hTC : 1 ≤ threadsPerProcess * hm1.mpi_num_procs_on_host := by nlinarith
  have hs := smt_used_pos _ _ hTC hcore
  have hsle : smt_used (threadsPerProcess * hm1.mpi_num_procs_on_host) coreCount ≤ pusPerCore :=
    smt_used_least _ _ _ hcore (by linarith [mul_comm coreCount pusPerCore])
  set s := smt_used (threadsPerProcess * hm1.mpi_num_procs_on_host) coreCount with hsdef
  set g1 := threadsPerProcess * hm1.mpi_proc_num_on_host + t1 with hg1
  set g2 := threadsPerProcess * hm2.mpi_proc_num_on_host + t2 with hg2
  have r1 := Int.emod_nonneg g1 (ne_of_gt hs)
  have r1s := Int.emod_lt_of_pos g1 hs
  have r2 := Int.emod_nonneg g2 (ne_of_gt hs)
  have r2s := Int.emod_lt_of_pos g2 hs
  obtain ⟨hq, hr⟩ := quot_rem_unique (g1 / s) (g1 % s) (g2 / s) (g2 % s) pusPerCore r1
    (lt_of_lt_of_le r1s hsle) r2 (lt_of_lt_of_le r2s hsle) hpu
  have hg : g1 = g2 := by
    rw [← Int.ediv_add_emod g1 s, ← Int.ediv_add_emod g2 s, hq, hr]
  have := quot_rem_unique hm1.mpi_proc_num_on_host t1 hm2.mpi_proc_num_on_host t2
    threadsPerProcess ht1 ht1T ht2 ht2T (by rw [hg1, hg2] at hg; linarith)
  exact this

/-- Claim C1, at 2 processes of 4 threads on 4 cores with 2 PUs each: thread 3 of rank 0 and
thread 3 of rank 1. -/
theorem set_bindings_injective_witness :
    ∃ b1 b2 : thread_target,
      set_bindings 4 (4 * 2) ⟨2, 0, 1, 0, 2, 0⟩ 4 3 = some b1 ∧
      set_bindings 4 (4 * 2) ⟨2, 1, 1, 0, 2, 1⟩ 4 3 = some b2 ∧
      (b1.pu_num = b2.pu_num → (0 : Int) = 1 ∧ (3 : Int) = 3) :=
  set_bindings_injective 4 2 4 ⟨2, 0, 1, 0, 2, 0⟩ ⟨2, 1, 1, 0, 2, 1⟩ 3 3 (by decide) (by decide)
    (by decide) rfl (by decide) (by decide) (by decide) (by decide) (by decide) (by decide)
    (by decide) (by decide) (by decide) (by decide)

/-- Claim C2.  On one core with one PU, one process with two threads (oversubscribed, 2 > 1):
the second thread computes `pu_num = 1`, which is not below `coreCount * pusPerCore = 1`. -/
theorem set_bindings_oversubscribed_out_of_range :
    (2 : Int) * 1 > 1 * 1 ∧
    set_bindings 1 (1 * 1) ⟨1, 0, 1, 0, 1, 0⟩ 2 1 =
      some { thread_num := 1, core_num := 0, pu_num := 1 } ∧
    ¬ ((1 : Int) < 1 * 1) := by
  decide

/-- Claim C7.  The thread target `set_bindings` computes is the specified one: with
`smtThreadsUsed = ceil(threadsPerProcess * countOnHost / coreCount)` and
`g = p * threadsPerProcess + t`, `divup` returns `smtThreadsUsed`, `coreNum = g div smtThreadsUsed`
and `puNum = coreNum * pusPerCore + (g mod smtThreadsUsed)`. -/
theorem set_bindings_formula (coreCount pusPerCore threadsPerProcess : Int)
    (hm : mpi_host_mapping_t) (t : Int)
    (hcore : 0 < coreCount) (hpus : 1 ≤ pusPerCore)
    (hcount : 1 ≤ hm.mpi_num_procs_on_host) (hT : 1 ≤ threadsPerProcess)
    (hp : 0 ≤ hm.mpi_proc_num_on_host)
    (hpc : hm.mpi_proc_num_on_host < hm.mpi_num_procs_on_host)
    (ht : 0 ≤ t) (htT : t < threadsPerProcess) :
    divup (threadsPerProcess * hm.mpi_num_procs_on_host) coreCount =
      some (spec_smtThreadsUsed threadsPerProcess hm.mpi_num_procs_on_host coreCount) ∧
    set_bindings coreCount (coreCount * pusPerCore) hm threadsPerProcess t =
      some { thread_num := spec_globalThreadNum hm.mpi_proc_num_on_host threadsPerProcess t
             core_num := spec_coreNum
               (spec_globalThreadNum hm.mpi_proc_num_on_host threadsPerProcess t)
               (spec_smtThreadsUsed threadsPerProcess hm.mpi_num_procs_on_host coreCount)
             pu_num := spec_puNum
               (spec_globalThreadNum hm.mpi_proc_num_on_host threadsPerProcess t)
               (spec_smtThreadsUsed threadsPerProcess hm.mpi_num_procs_on_host coreCount)
               pusPerCore } := by
  have hTC : 1 ≤ threadsPerProcess * hm.mpi_num_procs_on_host := by nlinarith
  constructor
  · rw [divup_eq _ _ (le_trans zero_le_one hTC) hcore, smt_used_eq_ceil _ _ _ hcore]
  · rw [set_bindings_eq coreCount pusPerCore hm threadsPerProcess t hcore hpus hcount hT hp ht,
      smt_used_eq_ceil _ _ _ hcore]
    unfold spec_puNum spec_coreNum spec_globalThreadNum
    rw [mul_comm threadsPerProcess hm.mpi_proc_num_on_host]

/-- Claim C7, the two scenarios of the specification.  Scenario B: 2 processes of 4 threads on 4
cores with 2 PUs each, rank 1, thread 3: `smtThreadsUsed = 2`, `coreNum = 3`, `puNum = 7`.
Scenario A: 4 processes of 1 thread on 4 cores with 1 PU each, rank 2, thread 0:
`smtThreadsUsed = 1`, `coreNum = 2`, `puNum = 2`. -/
theorem set_bindings_formula_witness :
    (divup (4 * 2) 4 = some 2 ∧ spec_smtThreadsUsed 4 2 4 = 2 ∧
      set_bindings 4 (4 * 2) ⟨2, 1, 1, 0, 2, 1⟩ 4 3 =
        some { thread_num := 7, core_num := 3, pu_num := 7 } ∧
      spec_coreNum (spec_globalThreadNum 1 4 3) (spec_smtThreadsUsed 4 2 4) = 3 ∧
      spec_puNum (spec_globalThreadNum 1 4 3) (spec_smtThreadsUsed 4 2 4) 2 = 7) ∧
    (divup (1 * 4) 4 = some 1 ∧ spec_smtThreadsUsed 1 4 4 = 1 ∧
      set_bindings 4 (4 * 1) ⟨4, 2, 1, 0, 4, 2⟩ 1 0 =
        some { thread_num := 2, core_num := 2, pu_num := 2 } ∧
      spec_coreNum (spec_globalThreadNum 2 1 0) (spec_smtThreadsUsed 1 4 4) = 2 ∧
      spec_puNum (spec_globalThreadNum 2 1 0) (spec_smtThreadsUsed 1 4 4) 1 = 2) := by
  have hB := set_bindings_formula 4 2 4 ⟨2, 1, 1, 0, 2, 1⟩ 3 (by decide) (by decide) (by decide)
    (by decide) (by decide) (by decide) (by decide) (by decide)
  have hA := set_bindings_formula 4 1 1 ⟨4, 2, 1, 0, 4, 2⟩ 0 (by decide) (by decide) (by decide)
    (by decide) (by decide) (by decide) (by decide) (by decide)
  have dB : divup (4 * 2) 4 = some 2 := by decide
  have dA : divup (1 * 4) 4 = some 1 := by decide
  have sB : set_bindings 4 (4 * 2) ⟨2, 1, 1, 0, 2, 1⟩ 4 3 =
      some { thread_num := 7, core_num := 3, pu_num := 7 } := by decide
  have sA : set_bindings 4 (4 * 1) ⟨4, 2, 1, 0, 4, 2⟩ 1 0 =
      some { thread_num := 2, core_num := 2, pu_num := 2 } := by decide
  obtain ⟨hB1, hB2⟩ := hB
  obtain ⟨hA1, hA2⟩ := hA
  rw [dB] at hB1
  rw [dA] at hA1
  rw [sB] at hB2
  rw [sA] at hA2
  simp only [Option.some.injEq, thread_target.mk.injEq] at hB1 hB2 hA1 hA2
  exact ⟨⟨dB, hB1.symm, sB, hB2.2.1.symm, hB2.2.2.symm⟩,
    ⟨dA, hA1.symm, sA, hA2.2.1.symm, hA2.2.2.symm⟩⟩

/-- Claim C10.  For every thread of every process on the host, oversubscribed or not, `divup`
returns a positive `smtThreadsUsed`, `set_bindings` returns, its `core_num` is the truncating
quotient of `rankOnHost * threadsPerProcess + threadIndex` by `smtThreadsUsed`, and
`0 ≤ core_num < coreCount`. -/
theorem set_bindings_core_in_range (coreCount pusPerCore threadsPerProcess : Int)
    (hm : mpi_host_mapping_t) (t : Int)
    (hcore : 0 < coreCount) (hpus : 1 ≤ pusPerCore)
    (hcount : 1 ≤ hm.mpi_num_procs_on_host) (hT : 1 ≤ threadsPerProcess)
    (hp : 0 ≤ hm.mpi_proc_num_on_host)
    (hpc : hm.mpi_proc_num_on_host < hm.mpi_num_procs_on_host)
    (ht : 0 ≤ t) (htT : t < threadsPerProcess) :
    ∃ (smtThreadsUsed : Int) (b : thread_target),
      divup (threadsPerProcess * hm.mpi_num_procs_on_host) coreCount = some smtThreadsUsed ∧
      0 < smtThreadsUsed ∧
      set_bindings coreCount (coreCount * pusPerCore) hm threadsPerProcess t = some b ∧
      b.core_num =
        (hm.mpi_proc_num_on_host * threadsPerProcess + t).tdiv smtThreadsUsed ∧
      0 ≤ b.core_num ∧ b.core_num < coreCount := by
  have hTC : 1 ≤ threadsPerProcess * hm.mpi_num_procs_on_host := by nlinarith
  have hs := smt_used_pos _ _ hTC hcore
  have hg : 0 ≤ threadsPerProcess * hm.mpi_proc_num_on_host + t := by nlinarith
  have hge := smt_used_mul_ge (threadsPerProcess * hm.mpi_num_procs_on_host) coreCount hcore
  refine ⟨_, _, divup_eq _ _ (le_trans zero_le_one hTC) hcore, hs,
    set_bindings_eq coreCount pusPerCore hm threadsPerProcess t hcore hpus hcount hT hp ht,
    ?_, ?_, ?_⟩
  · simp only
    rw [mul_comm hm.mpi_proc_num_on_host threadsPerProcess,
      Int.tdiv_eq_ediv hg (le_of_lt hs)]
  · exact Int.ediv_nonneg hg (le_of_lt hs)
  · simp only
    apply Int.ediv_lt_of_lt_mul hs
    have : threadsPerProcess * (hm.mpi_proc_num_on_host + 1) ≤
        threadsPerProcess * hm.mpi_num_procs_on_host :=
      mul_le_mul_of_nonneg_left (by omega) (by omega)
    nlinarith

/-- Claim C10, at 2 processes of 4 threads on 4 cores with 2 PUs each, rank 1, thread 3. -/
theorem set_bindings_core_in_range_witness :
    ∃ (smtThreadsUsed : Int) (b : thread_target),
      divup (4 * 2) 4 = some smtThreadsUsed ∧
      0 < smtThreadsUsed ∧
      set_bindings 4 (4 * 2) ⟨2, 1, 1, 0, 2, 1⟩ 4 3 = some b ∧
      b.core_num = ((1 : Int) * 4 + 3).tdiv smtThreadsUsed ∧
      0 ≤ b.core_num ∧ b.core_num < 4 :=
  set_bindings_core_in_range 4 2 4 ⟨2, 1, 1, 0, 2, 1⟩ 3 (by decide) (by decide) (by decide)
    (by decide) (by decide) (by decide) (by decide) (by decide)

/-! ## The warnings of `node_topology_info_t::load` -/

/-- Under the preconditions of the binding engine the first part of `load` returns, and its
output is the two report lines followed by the warnings whose conditions hold. -/
theorem load_smt_threads_eq (coreCount pusPerCore : Int) (hm : mpi_host_mapping_t) (T : Int)
    (hcore : 0 < coreCount) (hpus : 1 ≤ pusPerCore) (hC : 1 ≤ hm.mpi_num_procs_on_host)
    (hT : 1 ≤ T) :
    load_smt_threads coreCount (coreCount * pusPerCore) hm T =
      some (smt_used (T * hm.mpi_num_procs_on_host) coreCount,
        ([output_line.pus_per_core pusPerCore,
          output_line.threads_per_core (smt_used (T * hm.mpi_num_procs_on_host) coreCount)] ++
          (if smt_used (T * hm.mpi_num_procs_on_host) coreCount > pusPerCore then
            [output_line.warning_larger_than_hardware] else [])) ++
          (if T.tmod (smt_used (T * hm.mpi_num_procs_on_host) coreCount) ≠ 0 then
            [output_line.warning_not_evenly_divide] else [])) := by
  have hTC : 1 ≤ T * hm.mpi_num_procs_on_host := by nlinarith
  have hs := smt_used_pos _ _ hTC hcore
  have hpu : 0 < coreCount * pusPerCore := by nlinarith
  have hmod : (coreCount * pusPerCore).tmod coreCount = 0 := by
    rw [Int.tmod_eq_emod (le_of_lt hpu) (le_of_lt hcore)]
    exact Int.mul_emod_right _ _
  have hdiv : (coreCount * pusPerCore).tdiv coreCount = pusPerCore := by
    rw [Int.tdiv_eq_ediv (le_of_lt hpu) (le_of_lt hcore)]
    exact Int.mul_ediv_cancel_left _ (ne_of_gt hcore)
  unfold load_smt_threads
  simp only [hcore, hpu, hmod, hdiv, not_true_eq_false, if_false,
    divup_eq _ _ (le_trans zero_le_one hTC) hcore, hs]
  by_cases h1 : smt_used (T * hm.mpi_num_procs_on_host) coreCount > pusPerCore <;>
  by_cases h2 : T.tmod (smt_used (T * hm.mpi_num_procs_on_host) coreCount) ≠ 0 <;>
  simp [h1, h2]

/-- Claim C8.  The first part of `load` returns; `num_smt_threads` is the value of `divup`, the
least integer `n` with `n * coreCount ≥ threadsPerProcess * countOnHost`; `smt_multiplier` is
`pusPerCore`; and both the condition `num_smt_threads > smt_multiplier` and the presence of the
oversubscription warning in the output are equivalent to
`threadsPerProcess * countOnHost > coreCount * pusPerCore`. -/
theorem load_oversubscription_warning (coreCount pusPerCore threadsPerProcess : Int)
    (hm : mpi_host_mapping_t)
    (hcore : 0 < coreCount) (hpus : 1 ≤ pusPerCore)
    (hcount : 1 ≤ hm.mpi_num_procs_on_host) (hT : 1 ≤ threadsPerProcess) :
    ∃ (num_smt_threads : Int) (out : List output_line),
      load_smt_threads coreCount (coreCount * pusPerCore) hm threadsPerProcess =
        some (num_smt_threads, out) ∧
      divup (threadsPerProcess * hm.mpi_num_procs_on_host) coreCount = some num_smt_threads ∧
      threadsPerProcess * hm.mpi_num_procs_on_host ≤ num_smt_threads * coreCount ∧
      (∀ n : Int, threadsPerProcess * hm.mpi_num_procs_on_host ≤ n * coreCount →
        num_smt_threads ≤ n) ∧
      (coreCount * pusPerCore).tdiv coreCount = pusPerCore ∧
      (num_smt_threads > pusPerCore ↔
        threadsPerProcess * hm.mpi_num_procs_on_host > coreCount * pusPerCore) ∧
      (output_line.warning_larger_than_hardware ∈ out ↔
        threadsPerProcess * hm.mpi_num_procs_on_host > coreCount * pusPerCore) := by
  have hTC : 1 ≤ threadsPerProcess * hm.mpi_num_procs_on_host := by nlinarith
  have hpu : 0 < coreCount * pusPerCore := by nlinarith
  have hiff : smt_used (threadsPerProcess * hm.mpi_num_procs_on_host) coreCount > pusPerCore ↔
      threadsPerProcess * hm.mpi_num_procs_on_host > coreCount * pusPerCore := by
    have := smt_used_le_iff (threadsPerProcess * hm.mpi_num_procs_on_host) coreCount pusPerCore
      hcore
    rw [gt_iff_lt, gt_iff_lt, ← not_le, ← not_le, this, mul_comm pusPerCore coreCount]
  refine ⟨_, _, load_smt_threads_eq coreCount pusPerCore hm threadsPerProcess hcore hpus hcount hT,
    divup_eq _ _ (le_trans zero_le_one hTC) hcore, smt_used_mul_ge _ _ hcore,
    fun n hn => smt_used_least _ _ n hcore hn, ?_, hiff, ?_⟩
  · rw [Int.tdiv_eq_ediv (le_of_lt hpu) (le_of_lt hcore)]
    exact Int.mul_ediv_cancel_left _ (ne_of_gt hcore)
  · rw [← hiff]
    by_cases h1 : smt_used (threadsPerProcess * hm.mpi_num_procs_on_host) coreCount > pusPerCore <;>
    by_cases h2 : threadsPerProcess.tmod
      (smt_used (threadsPerProcess * hm.mpi_num_procs_on_host) coreCount) ≠ 0 <;>
    simp [h1, h2]

/-- Claim C8, at 1 process of 3 threads on 1 core with 2 PUs (oversubscribed). -/
theorem load_oversubscription_warning_witness :
    ∃ (num_smt_threads : Int) (out : List output_line),
      load_smt_threads 1 (1 * 2) ⟨1, 0, 1, 0, 1, 0⟩ 3 = some (num_smt_threads, out) ∧
      divup (3 * 1) 1 = some num_smt_threads ∧
      (3 : Int) * 1 ≤ num_smt_threads * 1 ∧
      (∀ n : Int, (3 : Int) * 1 ≤ n * 1 → num_smt_threads ≤ n) ∧
      ((1 : Int) * 2).tdiv 1 = 2 ∧
      (num_smt_threads > 2 ↔ (3 : Int) * 1 > 1 * 2) ∧
      (output_line.warning_larger_than_hardware ∈ out ↔ (3 : Int) * 1 > 1 * 2) :=
  load_oversubscription_warning 1 2 3 ⟨1, 0, 1, 0, 1, 0⟩ (by decide) (by decide) (by decide)
    (by decide)

/-- Claim C9 as stated fails.  On 2 cores, 1 process of 2 threads: `smtThreadsUsed = 1`,
`smtThreadsUsed mod threadsPerProcess = 1 ≠ 0`, and `load` prints no uneven-division warning. -/
theorem load_uneven_warning_counterexample :
    ¬ ∀ (coreCount pusPerCore threadsPerProcess : Int) (hm : mpi_host_mapping_t),
      0 < coreCount → 1 ≤ pusPerCore → 1 ≤ hm.mpi_num_procs_on_host → 1 ≤ threadsPerProcess →
      (∃ s, divup (threadsPerProcess * hm.mpi_num_procs_on_host) coreCount = some s ∧
        s.tmod threadsPerProcess ≠ 0) →
      ∃ (num_smt_threads : Int) (out : List output_line),
        load_smt_threads coreCount (coreCount * pusPerCore) hm threadsPerProcess =
          some (num_smt_threads, out) ∧
        output_line.warning_not_evenly_divide ∈ out := by
  intro h
  obtain ⟨s, out, hload, hmem⟩ := h 2 1 2 ⟨1, 0, 1, 0, 1, 0⟩ (by decide) (by decide) (by decide)
    (by decide) ⟨1, by decide, by decide⟩
  have hval : load_smt_threads 2 (2 * 1) ⟨1, 0, 1, 0, 1, 0⟩ 2 =
      some (1, [output_line.pus_per_core 1, output_line.threads_per_core 1]) := by decide
  rw [hval] at hload
  simp only [Option.some.injEq, Prod.mk.injEq] at hload
  rw [← hload.2] at hmem
  simp at hmem

/-- Claim C9, amended.  When `smtThreadsUsed` does not evenly divide `threadsPerProcess`
(`threadsPerProcess mod smtThreadsUsed ≠ 0`), the first part of `load` returns and its output
contains the uneven-division warning. -/
theorem load_uneven_warning (coreCount pusPerCore threadsPerProcess : Int)
    (hm : mpi_host_mapping_t)
    (hcore : 0 < coreCount) (hpus : 1 ≤ pusPerCore)
    (hcount : 1 ≤ hm.mpi_num_procs_on_host) (hT : 1 ≤ threadsPerProcess)
    (huneven : ∃ s, divup (threadsPerProcess * hm.mpi_num_procs_on_host) coreCount = some s ∧
      threadsPerProcess.tmod s ≠ 0) :
    ∃ (num_smt_threads : Int) (out : List output_line),
      load_smt_threads coreCount (coreCount * pusPerCore) hm threadsPerProcess =
        some (num_smt_threads, out) ∧
      output_line.warning_not_evenly_divide ∈ out := by
  have hTC : 1 ≤ threadsPerProcess * hm.mpi_num_procs_on_host := by nlinarith
  obtain ⟨s, hs, hne⟩ := huneven
  rw [divup_eq _ _ (le_trans zero_le_one hTC) hcore] at hs
  simp only [Option.some.injEq] at hs
  subst hs
  refine ⟨_, _, load_smt_threads_eq coreCount pusPerCore hm threadsPerProcess hcore hpus hcount hT,
    ?_⟩
  simp [hne]

/-- Claim C9 amended, at 2 cores, 1 process of 3 threads: `smtThreadsUsed = 2` and
`3 mod 2 = 1`. -/
theorem load_uneven_warning_witness :
    ∃ (num_smt_threads : Int) (out : List output_line),
      load_smt_threads 2 (2 * 1) ⟨1, 0, 1, 0, 1, 0⟩ 3 = some (num_smt_threads, out) ∧
      output_line.warning_not_evenly_divide ∈ out :=
  load_uneven_warning 2 1 3 ⟨1, 0, 1, 0, 1, 0⟩ (by decide) (by decide) (by decide) (by decide)
    ⟨2, by decide, by decide⟩

/-! ## Cache strides -/

theorem to_uint64_of_pos (x : Int) (h0 : 0 < x) (h1 : x < 2 ^ 31) : to_uint64 x = x.toNat := by
  unfold to_uint64
  omega

theorem to_uint64_of_neg (x : Int) (h0 : x < 0) (h1 : -2 ^ 31 ≤ x) :
    to_uint64 x = (2 ^ 64 + x).toNat := by
  unfold to_uint64
  omega

theorem to_int_of_lt (n : Nat) (h : n < 2 ^ 31) : to_int n = (n : Int) := by
  unfold to_int
  have : n % 2 ^ 32 = n := Nat.mod_eq_of_lt (by omega)
  rw [this, if_pos h]

/-- The stride in the three cases of the associativity: positive with a quotient that fits an
`int`, zero, and negative with a size below the converted divisor. -/
theorem cache_stride_cases (cache_attr : hwloc_cache_attr_s)
    (hlo : -2 ^ 31 ≤ cache_attr.associativity) (hhi : cache_attr.associativity < 2 ^ 31) :
    (0 < cache_attr.associativity →
      (cache_attr.size : Int) / cache_attr.associativity < 2 ^ 31 →
      cache_stride cache_attr = (cache_attr.size : Int) / cache_attr.associativity) ∧
    (cache_attr.associativity = 0 → cache_stride cache_attr = 0) ∧
    (cache_attr.associativity < 0 →
      (cache_attr.size : Int) < 2 ^ 64 + cache_attr.associativity →
      cache_stride cache_attr = 0) := by
  refine ⟨?_, ?_, ?_⟩
  · intro hpos hq
    unfold cache_stride
    rw [if_neg (ne_of_gt hpos), to_uint64_of_pos _ hpos hhi]
    have hcast : ((cache_attr.size / cache_attr.associativity.toNat : Nat) : Int) =
        (cache_attr.size : Int) / cache_attr.associativity := by
      rw [Int.natCast_div, Int.toNat_of_nonneg (le_of_lt hpos)]
    rw [to_int_of_lt, hcast]
    have : ((cache_attr.size / cache_attr.associativity.toNat : Nat) : Int) < 2 ^ 31 := by
      rw [hcast]; exact hq
    exact_mod_cast this
  · intro h0
    unfold cache_stride
    rw [if_pos h0]
  · intro hneg hsz
    unfold cache_stride
    rw [if_neg (ne_of_lt hneg), to_uint64_of_neg _ hneg hlo]
    have : cache_attr.size / (2 ^ 64 + cache_attr.associativity).toNat = 0 :=
      Nat.div_eq_of_lt (by omega)
    rw [this]
    rfl

theorem load_cache_level_some (cache_attr : hwloc_cache_attr_s) (ci : cache_info_t)
    (line : output_line) (h : load_cache_level cache_attr = some (ci, line)) :
    ci.linesize = cache_attr.linesize ∧ ci.stride = cache_stride cache_attr := by
  unfold load_cache_level at h
  simp only at h
  split_ifs at h
  simp only [Option.some.injEq, Prod.mk.injEq] at h
  rw [← h.1]
  exact ⟨rfl, rfl⟩

theorem load_cache_info_some (caches : List hwloc_cache_attr_s) :
    ∀ (cis : List cache_info_t) (lines : List output_line),
      load_cache_info caches = some (cis, lines) →
      cis.length = caches.length ∧
      ∀ (i : Nat) (cache_attr : hwloc_cache_attr_s) (ci : cache_info_t),
        caches[i]? = some cache_attr → cis[i]? = some ci →
        ci.linesize = cache_attr.linesize ∧ ci.stride = cache_stride cache_attr := by
  induction caches with
  | nil =>
    intro cis lines h
    simp only [load_cache_info, Option.some.injEq, Prod.mk.injEq] at h
    rw [← h.1]
    simp
  | cons a rest ih =>
    intro cis lines h
    simp only [load_cache_info] at h
    cases hl : load_cache_level a with
    | none => simp [hl] at h
    | some r =>
      obtain ⟨ci0, line0⟩ := r
      cases hr : load_cache_info rest with
      | none => simp [hl, hr] at h
      | some r2 =>
        obtain ⟨cis2, lines2⟩ := r2
        simp only [hl, hr, Option.some.injEq, Prod.mk.injEq] at h
        obtain ⟨hlen, hall⟩ := ih cis2 lines2 hr
        rw [← h.1]
        refine ⟨by simp [hlen], ?_⟩
        intro i cache_attr ci hi hci
        cases i with
        | zero =>
          simp only [List.getElem?_cons_zero, Option.some.injEq] at hi hci
          rw [← hi, ← hci]
          exact load_cache_level_some a ci0 line0 hl
        | succ j =>
          simp only [List.getElem?_cons_succ] at hi hci
          exact hall j cache_attr ci hi hci

theorem load_some (num_cores num_pus : Int) (hm : mpi_host_mapping_t) (omp_max_threads : Int)
    (caches : List hwloc_cache_attr_s) (info : node_topology_info_t) (out : List output_line)
    (h : node_topology_info_t.load num_cores num_pus hm omp_max_threads caches =
      some (info, out)) :
    ∃ lines, load_cache_info caches = some (info.cache_info, lines) := by
  unfold node_topology_info_t.load at h
  cases h1 : load_smt_threads num_cores num_pus hm omp_max_threads with
  | none => simp [h1] at h
  | some r =>
    cases h2 : load_cache_info caches with
    | none => simp [h1, h2] at h
    | some r2 =>
      obtain ⟨cis, lines⟩ := r2
      simp only [h1, h2, Option.some.injEq, Prod.mk.injEq] at h
      rw [← h.1]
      exact ⟨lines, rfl⟩

/-- Claim C5 as stated fails.  A level reported with size `2^32` and associativity `1` is
recorded with stride `0`, not `2^32 / 1`; a level reported with size `2^64 - 1` and
associativity `-1` is recorded with stride `1`, not `0`. -/
theorem load_cache_stride_counterexample :
    (node_topology_info_t.load 4 8 ⟨1, 0, 1, 0, 1, 0⟩ 1 [⟨2 ^ 32, 64, 1⟩] =
      some (⟨1, [⟨64, 0⟩]⟩,
        [.pus_per_core 2, .threads_per_core 1, .cache (2 ^ 32) 64 1 0]) ∧
      (0 : Int) ≠ ((2 ^ 32 : Nat) : Int) / 1) ∧
    (node_topology_info_t.load 4 8 ⟨1, 0, 1, 0, 1, 0⟩ 1 [⟨2 ^ 64 - 1, 64, -1⟩] =
      some (⟨1, [⟨64, 1⟩]⟩,
        [.pus_per_core 2, .threads_per_core 1, .cache (2 ^ 64 - 1) 64 (-1) 1]) ∧
      (1 : Int) ≠ 0) := by
  decide

/-- Claim C5, amended.  For every cache level `load` records, with the reported associativity
in the range of `int`: the stored stride is `size / associativity` when `associativity > 0` and
that quotient is below `2^31`; it is `0` when `associativity = 0`; and it is `0` when
`associativity < 0` and `size < 2^64 + associativity`. -/
theorem load_cache_stride (num_cores num_pus : Int) (hm : mpi_host_mapping_t)
    (omp_max_threads : Int) (caches : List hwloc_cache_attr_s) (info : node_topology_info_t)
    (out : List output_line)
    (hload : node_topology_info_t.load num_cores num_pus hm omp_max_threads caches =
      some (info, out)) :
    info.cache_info.length = caches.length ∧
    ∀ (i : Nat) (cache_attr : hwloc_cache_attr_s) (ci : cache_info_t),
      caches[i]? = some cache_attr → info.cache_info[i]? = some ci →
      -2 ^ 31 ≤ cache_attr.associativity → cache_attr.associativity < 2 ^ 31 →
      (0 < cache_attr.associativity →
        (cache_attr.size : Int) / cache_attr.associativity < 2 ^ 31 →
        ci.stride = (cache_attr.size : Int) / cache_attr.associativity) ∧
      (cache_attr.associativity = 0 → ci.stride = 0) ∧
      (cache_attr.associativity < 0 →
        (cache_attr.size : Int) < 2 ^ 64 + cache_attr.associativity → ci.stride = 0) := by
  obtain ⟨lines, hl⟩ := load_some num_cores num_pus hm omp_max_threads caches info out hload
  obtain ⟨hlen, hall⟩ := load_cache_info_some caches info.cache_info lines hl
  refine ⟨hlen, ?_⟩
  intro i cache_attr ci hi hci hlo hhi
  rw [(hall i cache_attr ci hi hci).2]
  exact cache_stride_cases cache_attr hlo hhi

/-- Claim C5 amended, on a three-level hierarchy: 32 KiB 8-way (stride 4096), 1 MiB of unknown
associativity (stride 0), 32 MiB fully associative (stride 0). -/
theorem load_cache_stride_witness :
    node_topology_info_t.load 4 8 ⟨1, 0, 1, 0, 1, 0⟩ 1
        [⟨32768, 64, 8⟩, ⟨2 ^ 20, 64, 0⟩, ⟨2 ^ 25, 64, -1⟩] =
      some (⟨1, [⟨64, 4096⟩, ⟨64, 0⟩, ⟨64, 0⟩]⟩,
        [.pus_per_core 2, .threads_per_core 1, .cache 32768 64 8 4096,
          .cache (2 ^ 20) 64 0 0, .cache (2 ^ 25) 64 (-1) 0]) ∧
    ([⟨64, 4096⟩, ⟨64, 0⟩, ⟨64, 0⟩] : List cache_info_t).length =
      ([⟨32768, 64, 8⟩, ⟨2 ^ 20, 64, 0⟩, ⟨2 ^ 25, 64, -1⟩] : List hwloc_cache_attr_s).length ∧
    ((4096 : Int) = ((32768 : Nat) : Int) / 8) :=
  have hload : node_topology_info_t.load 4 8 ⟨1, 0, 1, 0, 1, 0⟩ 1
        [⟨32768, 64, 8⟩, ⟨2 ^ 20, 64, 0⟩, ⟨2 ^ 25, 64, -1⟩] =
      some (⟨1, [⟨64, 4096⟩, ⟨64, 0⟩, ⟨64, 0⟩]⟩,
        [.pus_per_core 2, .threads_per_core 1, .cache 32768 64 8 4096,
          .cache (2 ^ 20) 64 0 0, .cache (2 ^ 25) 64 (-1) 0]) := by decide
  have h := load_cache_stride 4 8 ⟨1, 0, 1, 0, 1, 0⟩ 1
    [⟨32768, 64, 8⟩, ⟨2 ^ 20, 64, 0⟩, ⟨2 ^ 25, 64, -1⟩] _ _ hload
  ⟨hload, h.1, (h.2 0 ⟨32768, 64, 8⟩ ⟨64, 4096⟩ rfl rfl (by decide) (by decide)).1 (by decide)
    (by decide)⟩

/-! ## The cache query -/

/-- The copy loop of `hwloc_GetCacheInfo` after `n` iterations: entries below `n` hold the
values copied, all others are untouched. -/
theorem GetCacheInfo_loop (f g : Nat → Int) (linesizes strides : Nat → Int) (n : Nat) :
    (List.range n).foldl
      (fun (bufs : (Nat → Int) × (Nat → Int)) level =>
        (Function.update bufs.1 level (f level), Function.update bufs.2 level (g level)))
      (linesizes, strides) =
    ((fun i => if i < n then f i else linesizes i),
     (fun i => if i < n then g i else strides i)) := by
  induction n with
  | zero => simp
  | succ k ih =>
    rw [List.range_succ, List.foldl_append, ih]
    simp only [List.foldl_cons, List.foldl_nil, Prod.mk.injEq]
    constructor <;>
    · funext i
      by_cases hik : i = k
      · subst hik
        simp
      · rw [Function.update_noteq hik]
        by_cases hlt : i < k
        · simp [hlt, Nat.lt_succ_of_lt hlt]
        · have : ¬ i < k + 1 := by omega
          simp [hlt, this]

/-- Claim C6.  `hwloc_GetCacheInfo` returns the number `n` of stored levels whatever `K` is;
entry `i` of both buffers holds the line size and stride of level `i` exactly for
`i < min(K, n)`, and every other entry is unchanged; for `K ≥ n` reading the first `n` entries
back gives the stored sequence, in order; for `K < n` the value returned exceeds `K`. -/
theorem hwloc_GetCacheInfo_spec (node_topology_info : node_topology_info_t)
    (linesizes strides : Nat → Int) (K : Int) :
    (hwloc_GetCacheInfo node_topology_info linesizes strides K).ret =
      (node_topology_info.cache_info.length : Int) ∧
    (∀ (i : Nat) (ci : cache_info_t), (i : Int) < K → node_topology_info.cache_info[i]? = some ci →
      (hwloc_GetCacheInfo node_topology_info linesizes strides K).linesizes i = ci.linesize ∧
      (hwloc_GetCacheInfo node_topology_info linesizes strides K).strides i = ci.stride) ∧
    (∀ i : Nat, ¬ ((i : Int) < min K (node_topology_info.cache_info.length : Int)) →
      (hwloc_GetCacheInfo node_topology_info linesizes strides K).linesizes i = linesizes i ∧
      (hwloc_GetCacheInfo node_topology_info linesizes strides K).strides i = strides i) ∧
    ((node_topology_info.cache_info.length : Int) ≤ K →
      (List.range node_topology_info.cache_info.length).map
        (fun i => ({ linesize :=
                       (hwloc_GetCacheInfo node_topology_info linesizes strides K).linesizes i
                     stride :=
                       (hwloc_GetCacheInfo node_topology_info linesizes strides K).strides i } :
          cache_info_t)) = node_topology_info.cache_info) ∧
    (K < (node_topology_info.cache_info.length : Int) →
      K < (hwloc_GetCacheInfo node_topology_info linesizes strides K).ret) := by
  have hls : ∀ i : Nat,
      (hwloc_GetCacheInfo node_topology_info linesizes strides K).linesizes i =
        if i < (min K (node_topology_info.cache_info.length : Int)).toNat then
          (node_topology_info.cache_info.getD i ⟨0, 0⟩).linesize else linesizes i := by
    intro i
    unfold hwloc_GetCacheInfo
    simp only
    rw [GetCacheInfo_loop (fun l => (node_topology_info.cache_info.getD l ⟨0, 0⟩).linesize)
      (fun l => (node_topology_info.cache_info.getD l ⟨0, 0⟩).stride)]
  have hss : ∀ i : Nat,
      (hwloc_GetCacheInfo node_topology_info linesizes strides K).strides i =
        if i < (min K (node_topology_info.cache_info.length : Int)).toNat then
          (node_topology_info.cache_info.getD i ⟨0, 0⟩).stride else strides i := by
    intro i
    unfold hwloc_GetCacheInfo
    simp only
    rw [GetCacheInfo_loop (fun l => (node_topology_info.cache_info.getD l ⟨0, 0⟩).linesize)
      (fun l => (node_topology_info.cache_info.getD l ⟨0, 0⟩).stride)]
  refine ⟨rfl, ?_, ?_, ?_, ?_⟩
  · intro i ci hiK hci
    have hin : i < node_topology_info.cache_info.length := by
      by_contra hc
      rw [List.getElem?_eq_none (by omega)] at hci
      exact Option.noConfusion hci
    have hlt : i < (min K (node_topology_info.cache_info.length : Int)).toNat := by omega
    have hget : node_topology_info.cache_info.getD i ⟨0, 0⟩ = ci := by
      rw [List.getD_eq_getElem?_getD, hci]
      rfl
    rw [hls, hss, if_pos hlt, if_pos hlt, hget]
    exact ⟨rfl, rfl⟩
  · intro i hi
    have hlt : ¬ i < (min K (node_topology_info.cache_info.length : Int)).toNat := by omega
    rw [hls, hss, if_neg hlt, if_neg hlt]
    exact ⟨rfl, rfl⟩
  · intro hK
    apply List.ext_getElem
    · simp
    · intro i h1 h2
      have hlt : i < (min K (node_topology_info.cache_info.length : Int)).toNat := by omega
      simp only [List.getElem_map, List.getElem_range]
      rw [hls, hss, if_pos hlt, if_pos hlt, List.getD_eq_getElem?_getD,
        List.getElem?_eq_getElem h2]
      rfl
  · intro hK
    exact hK

/-- Claim C6, on two stored levels with `K = 1`: the value returned is 2 (more than `K`), entry 0
of both buffers is overwritten with level 0, entry 1 keeps the caller's value. -/
theorem hwloc_GetCacheInfo_spec_witness :
    (hwloc_GetCacheInfo ⟨1, [⟨64, 4096⟩, ⟨64, 65536⟩]⟩ (fun _ => -1) (fun _ => -2) 1).ret = 2 ∧
    (hwloc_GetCacheInfo ⟨1, [⟨64, 4096⟩, ⟨64, 65536⟩]⟩ (fun _ => -1) (fun _ => -2) 1).linesizes 0
      = 64 ∧
    (hwloc_GetCacheInfo ⟨1, [⟨64, 4096⟩, ⟨64, 65536⟩]⟩ (fun _ => -1) (fun _ => -2) 1).strides 0
      = 4096 ∧
    (hwloc_GetCacheInfo ⟨1, [⟨64, 4096⟩, ⟨64, 65536⟩]⟩ (fun _ => -1) (fun _ => -2) 1).linesizes 1
      = -1 ∧
    (hwloc_GetCacheInfo ⟨1, [⟨64, 4096⟩, ⟨64, 65536⟩]⟩ (fun _ => -1) (fun _ => -2) 1).strides 1
      = -2 ∧
    1 < (hwloc_GetCacheInfo ⟨1, [⟨64, 4096⟩, ⟨64, 65536⟩]⟩ (fun _ => -1) (fun _ => -2) 1).ret :=
  have h := hwloc_GetCacheInfo_spec ⟨1, [⟨64, 4096⟩, ⟨64, 65536⟩]⟩ (fun _ => -1) (fun _ => -2) 1
  ⟨h.1, (h.2.1 0 ⟨64, 4096⟩ (by decide) rfl).1, (h.2.1 0 ⟨64, 4096⟩ (by decide) rfl).2,
    (h.2.2.1 1 (by decide)).1, (h.2.2.1 1 (by decide)).2, h.2.2.2.2 (by decide)⟩

/-! ## Host mapping resolver -/

/-- Invariant rule for a counted loop `for (i = 0; i < N; ++i)`. -/
theorem foldl_range_invariant {σ : Type} (P : Nat → σ → Prop) (f : σ → Nat → σ) (init : σ)
    (N : Nat) (h0 : P 0 init) (hstep : ∀ n st, n < N → P n st → P (n + 1) (f st n)) :
    P N ((List.range N).foldl f init) := by
  have key : ∀ k, k ≤ N → P k ((List.range k).foldl f init) := by
    intro k
    induction k with
    | zero => intro _; simpa using h0
    | succ m ih =>
      intro hm
      rw [List.range_succ, List.foldl_append]
      exact hstep m _ (by omega) (ih (by omega))
  exact key N le_rfl

theorem getD_indexOf (l : List String) (s : String) (h : l.indexOf s < l.length) :
    l.getD (l.indexOf s) "" = s := by
  rw [List.getD_eq_getElem l "" h]
  exact List.indexOf_get h

theorem indexOf_getD_le (l : List String) :
    ∀ q, q < l.length → l.indexOf (l.getD q "") ≤ q := by
  induction l with
  | nil => intro q hq; simp at hq
  | cons a t ih =>
    intro q hq
    cases q with
    | zero => simp [List.indexOf_cons]
    | succ j =>
      have hj : j < t.length := by simpa using hq
      have := ih j hj
      simp only [List.getD_cons_succ, List.indexOf_cons]
      by_cases hab : a = t.getD j ""
      · have hb : (a == t.getD j "") = true := by simpa using hab
        rw [hb]
        simp
      · have hb : (a == t.getD j "") = false := by simpa using hab
        rw [hb]
        simpa using this

theorem indexOf_getD_lt_length (l : List String) (q : Nat) (hq : q < l.length) :
    l.indexOf (l.getD q "") < l.length :=
  lt_of_le_of_lt (indexOf_getD_le l q hq) hq

/-- The first occurrence of a string is a first occurrence of its own string. -/
theorem indexOf_first (l : List String) (q : Nat) (hq : q < l.length) :
    l.indexOf (l.getD (l.indexOf (l.getD q "")) "") = l.indexOf (l.getD q "") := by
  rw [getD_indexOf l _ (indexOf_getD_lt_length l q hq)]

theorem hosts_before_succ (l : List String) (k : Nat) :
    hosts_before l (k + 1) =
      hosts_before l k + if l.indexOf (l.getD k "") = k then 1 else 0 := by
  unfold hosts_before
  rw [List.range_succ, List.filter_append, List.length_append]
  by_cases h : l.indexOf (l.getD k "") = k <;>
    simp [-List.getD_eq_getElem?_getD, List.filter_cons, h]

theorem hosts_before_mono (l : List String) (a b : Nat) (hab : a ≤ b) :
    hosts_before l a ≤ hosts_before l b := by
  induction b with
  | zero =>
    have : a = 0 := by omega
    rw [this]
  | succ m ih =>
    by_cases h : a = m + 1
    · rw [h]
    · have := ih (by omega)
      rw [hosts_before_succ]
      omega

/-- Strictly more hosts are counted past a first occurrence. -/
theorem hosts_before_lt (l : List String) (f g : Nat) (hf : l.indexOf (l.getD f "") = f)
    (hfg : f < g) : hosts_before l f < hosts_before l g := by
  have h1 := hosts_before_succ l f
  rw [if_pos hf] at h1
  have h2 := hosts_before_mono l (f + 1) g hfg
  omega

/-- Processes whose first occurrences are preceded by the same number of hosts have the same
host string. -/
theorem hosts_before_inj (l : List String) (p q : Nat) (hp : p < l.length) (hq : q < l.length)
    (h : hosts_before l (l.indexOf (l.getD p "")) = hosts_before l (l.indexOf (l.getD q ""))) :
    l.getD p "" = l.getD q "" := by
  have hfp := indexOf_first l p hp
  have hfq := indexOf_first l q hq
  have heq : l.indexOf (l.getD p "") = l.indexOf (l.getD q "") := by
    rcases lt_trichotomy (l.indexOf (l.getD p "")) (l.indexOf (l.getD q "")) with h1 | h1 | h1
    · have := hosts_before_lt l _ _ hfp h1
      omega
    · exact h1
    · have := hosts_before_lt l _ _ hfq h1
      omega
  rw [← getD_indexOf l _ (indexOf_getD_lt_length l p hp), heq,
    getD_indexOf l _ (indexOf_getD_lt_length l q hq)]

theorem hosts_before_lt_total (l : List String) (p : Nat) (hp : p < l.length) :
    hosts_before l (l.indexOf (l.getD p "")) < hosts_before l l.length :=
  hosts_before_lt l _ _ (indexOf_first l p hp) (indexOf_getD_lt_length l p hp)

theorem host_loop_step (l : List String) (n : Nat) (st : host_tables) (hn : n < l.length)
    (hinv : host_loop_inv l n st) : host_loop_inv l (n + 1) (host_loop_body l st n) := by
  obtain ⟨h1, h2, h3, h4, h5⟩ := hinv
  have hle : l.indexOf (l.getD n "") ≤ n := indexOf_getD_le l n hn
  -- an index equal to `n` belongs to the string of process `n`
  have hidx : ∀ s, l.indexOf s = n → s = l.getD n "" := by
    intro s hs
    have := getD_indexOf l s (by omega)
    rw [hs] at this
    exact this.symm
  -- the tables after the conditional insertion
  have hst1 : ∃ st1 : host_tables,
      host_loop_body l st n =
        { st1 with
          host_byproc := st1.host_byproc.set n ((st1.hostname2host.lookup (l.getD n "")).getD 0)
          host2procs1 := Function.update st1.host2procs1
            ((st1.hostname2host.lookup (l.getD n "")).getD 0)
            (st1.host2procs1 ((st1.hostname2host.lookup (l.getD n "")).getD 0) ++ [n]) } ∧
      st1.mpi_num_hosts = hosts_before l (n + 1) ∧
      (∀ s, st1.hostname2host.lookup s =
        if l.indexOf s < n + 1 then some (hosts_before l (l.indexOf s)) else none) ∧
      st1.host_byproc = st.host_byproc ∧ st1.host2procs1 = st.host2procs1 := by
    by_cases hlt : l.indexOf (l.getD n "") < n
    · refine ⟨st, ?_, ?_, ?_, rfl, rfl⟩
      · unfold host_loop_body
        have : (st.hostname2host.lookup (l.getD n "")).isNone = false := by
          rw [h2, if_pos hlt]; rfl
        simp only [this, Bool.false_eq_true, if_false]
      · rw [hosts_before_succ, if_neg (by omega), h1]; rfl
      · intro s
        rw [h2]
        have hne : l.indexOf s ≠ n := by
          intro hs
          rw [hidx s hs] at hs
          omega
        by_cases hs : l.indexOf s < n
        · rw [if_pos hs, if_pos (by omega)]
        · rw [if_neg hs, if_neg (by omega)]
    · have heq : l.indexOf (l.getD n "") = n := by omega
      refine ⟨{ st with
          hostname2host := (l.getD n "", st.mpi_num_hosts) :: st.hostname2host
          hostnames := st.hostnames ++ [l.getD n ""]
          mpi_num_hosts := st.mpi_num_hosts + 1 }, ?_, ?_, ?_, rfl, rfl⟩
      · unfold host_loop_body
        have : (st.hostname2host.lookup (l.getD n "")).isNone = true := by
          rw [h2, if_neg hlt]; rfl
        simp only [this, if_true]
      · show st.mpi_num_hosts + 1 = _
        rw [hosts_before_succ, if_pos heq, h1]
      · intro s
        show List.lookup s ((l.getD n "", st.mpi_num_hosts) :: st.hostname2host) = _
        rw [List.lookup_cons]
        by_cases hs : s = l.getD n ""
        · have hb : (s == l.getD n "") = true := by simpa using hs
          rw [hb, hs, heq, if_pos (by omega), h1]
        · have hb : (s == l.getD n "") = false := by simpa using hs
          rw [hb]
          show List.lookup s st.hostname2host = _
          rw [h2]
          have hne : l.indexOf s ≠ n := fun hc => hs (hidx s hc)
          by_cases hs2 : l.indexOf s < n
          · rw [if_pos hs2, if_pos (by omega)]
          · rw [if_neg hs2, if_neg (by omega)]
  obtain ⟨st1, hbody, a1, a2, a3, a4⟩ := hst1
  have hhost : (st1.hostname2host.lookup (l.getD n "")).getD 0 =
      hosts_before l (l.indexOf (l.getD n "")) := by
    rw [a2, if_pos (by omega)]; rfl
  rw [hbody, hhost, a3, a4]
  refine ⟨a1, a2, ?_, ?_, ?_⟩
  · show (st.host_byproc.set n _).length = _
    rw [List.length_set, h3]
  · intro p hp
    show (st.host_byproc.set n _).getD p 0 = _
    rw [List.getD_eq_getElem?_getD, List.getElem?_set]
    by_cases hpn : n = p
    · subst hpn
      rw [if_pos rfl, if_pos (by omega)]; rfl
    · rw [if_neg hpn, ← List.getD_eq_getElem?_getD]
      exact h4 p (by omega)
  · intro h
    show Function.update st.host2procs1 _ _ h = _
    rw [List.range_succ, List.filter_append]
    by_cases hh : h = hosts_before l (l.indexOf (l.getD n ""))
    · subst hh
      rw [Function.update_same, h5]
      simp [-List.getD_eq_getElem?_getD, List.filter_cons]
    · rw [Function.update_noteq hh, h5]
      have : ¬ hosts_before l (l.indexOf (l.getD n "")) = h := fun hc => hh hc.symm
      simp [-List.getD_eq_getElem?_getD, List.filter_cons, this]

/-- The tables of the root process after its first loop. -/
theorem host_loop_spec (l : List String) : host_loop_inv l l.length (host_loop l) := by
  unfold host_loop
  apply foldl_range_invariant (host_loop_inv l) (host_loop_body l)
  · refine ⟨rfl, ?_, ?_, ?_, ?_⟩
    · intro s; simp
    · simp
    · intro p hp; omega
    · intro h; simp
  · intro n st hn hinv
    exact host_loop_step l n st hn hinv

/-- Reading a table after one store. -/
theorem getD_set (l : List Nat) (a v p : Nat) :
    (l.set a v).getD p 0 = if a = p then (if a < l.length then v else 0) else l.getD p 0 := by
  rw [List.getD_eq_getElem?_getD, List.getElem?_set]
  by_cases h : a = p
  · rw [if_pos h, if_pos h]
    by_cases h2 : a < l.length
    · rw [if_pos h2, if_pos h2]; rfl
    · rw [if_neg h2, if_neg h2]; rfl
  · rw [if_neg h, if_neg h, List.getD_eq_getElem?_getD]

/-- The inner numbering loop: the processes of the list receive the count `v` and their
position, all other entries are untouched. -/
theorem rank_inner_loop (L : List Nat) (v : Nat) (st : rank_tables) (hnd : L.Nodup)
    (hb1 : ∀ x ∈ L, x < st.num_procs_on_host_byproc.length)
    (hb2 : ∀ x ∈ L, x < st.proc_num_on_host_byproc.length) :
    ((List.range L.length).foldl (rank_inner_body L v) st).num_procs_on_host_byproc.length =
      st.num_procs_on_host_byproc.length ∧
    ((List.range L.length).foldl (rank_inner_body L v) st).proc_num_on_host_byproc.length =
      st.proc_num_on_host_byproc.length ∧
    (∀ i, i < L.length →
      ((List.range L.length).foldl (rank_inner_body L v) st).num_procs_on_host_byproc.getD
        (L.getD i 0) 0 = v ∧
      ((List.range L.length).foldl (rank_inner_body L v) st).proc_num_on_host_byproc.getD
        (L.getD i 0) 0 = i) ∧
    (∀ p, p ∉ L →
      ((List.range L.length).foldl (rank_inner_body L v) st).num_procs_on_host_byproc.getD p 0 =
        st.num_procs_on_host_byproc.getD p 0 ∧
      ((List.range L.length).foldl (rank_inner_body L v) st).proc_num_on_host_byproc.getD p 0 =
        st.proc_num_on_host_byproc.getD p 0) := by
  have key := foldl_range_invariant
    (fun m (r : rank_tables) =>
      r.num_procs_on_host_byproc.length = st.num_procs_on_host_byproc.length ∧
      r.proc_num_on_host_byproc.length = st.proc_num_on_host_byproc.length ∧
      (∀ i, i < m → r.num_procs_on_host_byproc.getD (L.getD i 0) 0 = v ∧
        r.proc_num_on_host_byproc.getD (L.getD i 0) 0 = i) ∧
      (∀ p, (∀ i, i < m → L.getD i 0 ≠ p) →
        r.num_procs_on_host_byproc.getD p 0 = st.num_procs_on_host_byproc.getD p 0 ∧
        r.proc_num_on_host_byproc.getD p 0 = st.proc_num_on_host_byproc.getD p 0))
    (rank_inner_body L v) st L.length
    ⟨rfl, rfl, fun i hi => absurd hi (Nat.not_lt_zero i), fun p _ => ⟨rfl, rfl⟩⟩
    (by
      intro m r hm ⟨c1, c2, c3, c4⟩
      have hmem : L.getD m 0 ∈ L := by
        rw [List.getD_eq_getElem L 0 hm]
        exact List.getElem_mem hm
      have hne : ∀ i, i < m → L.getD i 0 ≠ L.getD m 0 := by
        intro i hi hc
        rw [List.getD_eq_getElem L 0 hm, List.getD_eq_getElem L 0 (by omega : i < L.length)] at hc
        have := (hnd.getElem_inj_iff).1 hc
        omega
      refine ⟨?_, ?_, ?_, ?_⟩
      · show (r.num_procs_on_host_byproc.set _ _).length = _
        rw [List.length_set, c1]
      · show (r.proc_num_on_host_byproc.set _ _).length = _
        rw [List.length_set, c2]
      · intro i hi
        show (r.num_procs_on_host_byproc.set (L.getD m 0) v).getD (L.getD i 0) 0 = v ∧
          (r.proc_num_on_host_byproc.set (L.getD m 0) m).getD (L.getD i 0) 0 = i
        rw [getD_set, getD_set]
        by_cases him : i = m
        · subst him
          rw [if_pos rfl, if_pos rfl, if_pos (by rw [c1]; exact hb1 _ hmem),
            if_pos (by rw [c2]; exact hb2 _ hmem)]
          exact ⟨rfl, rfl⟩
        · have hlt : i < m := by omega
          have := hne i hlt
          rw [if_neg (fun hc => this hc.symm), if_neg (fun hc => this hc.symm)]
          exact c3 i hlt
      · intro p hp
        show (r.num_procs_on_host_byproc.set (L.getD m 0) v).getD p 0 = _ ∧
          (r.proc_num_on_host_byproc.set (L.getD m 0) m).getD p 0 = _
        have hpm : L.getD m 0 ≠ p := hp m (by omega)
        rw [getD_set, getD_set, if_neg hpm, if_neg hpm]
        exact c4 p (fun i hi => hp i (by omega)))
  obtain ⟨k1, k2, k3, k4⟩ := key
  refine ⟨k1, k2, k3, ?_⟩
  intro p hp
  apply k4
  intro i hi hc
  apply hp
  rw [← hc, List.getD_eq_getElem L 0 hi]
  exact List.getElem_mem hi

/-- The loop over hosts: when the process lists are sorted, bounded by the number of processes
and pairwise disjoint, every process of every host receives the length of its list and its
position in it. -/
theorem rank_loop_spec (N H : Nat) (host2procs1 : Nat → List Nat)
    (hsorted : ∀ h, List.Sorted (fun a b : Nat => a < b) (host2procs1 h))
    (hbound : ∀ h, ∀ x ∈ host2procs1 h, x < N)
    (hdisj : ∀ h h2, h ≠ h2 → ∀ x ∈ host2procs1 h, x ∉ host2procs1 h2) :
    ∀ h, h < H → ∀ i, i < (host2procs1 h).length →
      (rank_loop N H host2procs1).num_procs_on_host_byproc.getD ((host2procs1 h).getD i 0) 0 =
        (host2procs1 h).length ∧
      (rank_loop N H host2procs1).proc_num_on_host_byproc.getD ((host2procs1 h).getD i 0) 0 =
        i := by
  have key := foldl_range_invariant
    (fun k (r : rank_tables) =>
      r.num_procs_on_host_byproc.length = N ∧ r.proc_num_on_host_byproc.length = N ∧
      ∀ h, h < k → ∀ i, i < (host2procs1 h).length →
        r.num_procs_on_host_byproc.getD ((host2procs1 h).getD i 0) 0 =
          (host2procs1 h).length ∧
        r.proc_num_on_host_byproc.getD ((host2procs1 h).getD i 0) 0 = i)
    (rank_outer_body host2procs1)
    { num_procs_on_host_byhost := List.replicate H 0
      num_procs_on_host_byproc := List.replicate N 0
      proc_num_on_host_byproc := List.replicate N 0 } H
    ⟨by simp, by simp, fun h hh => absurd hh (Nat.not_lt_zero h)⟩
    (by
      intro k r hk ⟨c1, c2, c3⟩
      have hsort : List.insertionSort (fun a b : Nat => a ≤ b) (host2procs1 k) =
          host2procs1 k := List.Sorted.insertionSort_eq (hsorted k).le_of_lt
      have hnd : (host2procs1 k).Nodup := (hsorted k).nodup
      unfold rank_outer_body
      simp only [hsort]
      obtain ⟨i1, i2, i3, i4⟩ := rank_inner_loop (host2procs1 k) (host2procs1 k).length
        { r with num_procs_on_host_byhost :=
            r.num_procs_on_host_byhost.set k (host2procs1 k).length } hnd
        (fun x hx => by show x < r.num_procs_on_host_byproc.length; rw [c1]; exact hbound k x hx)
        (fun x hx => by show x < r.proc_num_on_host_byproc.length; rw [c2]; exact hbound k x hx)
      refine ⟨by rw [i1]; exact c1, by rw [i2]; exact c2, ?_⟩
      intro h hh i hi
      by_cases hhk : h = k
      · subst hhk
        exact i3 i hi
      · have hmem : (host2procs1 h).getD i 0 ∈ host2procs1 h := by
          rw [List.getD_eq_getElem _ 0 hi]
          exact List.getElem_mem hi
        have hnot := hdisj h k hhk _ hmem
        obtain ⟨j1, j2⟩ := i4 _ hnot
        rw [j1, j2]
        exact c3 h (by omega) i hi)
  exact key.2.2

/-- The host number of process `p` after the first loop. -/
theorem host_byproc_eq (l : List String) (p : Nat) (hp : p < l.length) :
    (host_loop l).host_byproc.getD p 0 = hosts_before l (l.indexOf (l.getD p "")) :=
  (host_loop_spec l).2.2.2.1 p hp

/-- The process list of a host after the first loop is the list of members of the host
string. -/
theorem host2procs1_eq_members (l : List String) (p0 : Nat) (hp0 : p0 < l.length) :
    (host_loop l).host2procs1 (hosts_before l (l.indexOf (l.getD p0 ""))) =
      host_members l (l.getD p0 "") := by
  rw [(host_loop_spec l).2.2.2.2]
  unfold host_members
  apply List.filter_congr
  intro q hq
  have hq2 : q < l.length := List.mem_range.1 hq
  apply decide_eq_decide.2
  constructor
  · intro h
    exact hosts_before_inj l q p0 hq2 hp0 h
  · intro h
    rw [h]

/-- The numbering of the processes of one host after the second loop. -/
theorem rank_of_member (l : List String) (p0 : Nat) (hp0 : p0 < l.length) (i : Nat)
    (hi : i < (host_members l (l.getD p0 "")).length) :
    (rank_loop l.length (host_loop l).mpi_num_hosts
        (host_loop l).host2procs1).num_procs_on_host_byproc.getD
      ((host_members l (l.getD p0 "")).getD i 0) 0 = (host_members l (l.getD p0 "")).length ∧
    (rank_loop l.length (host_loop l).mpi_num_hosts
        (host_loop l).host2procs1).proc_num_on_host_byproc.getD
      ((host_members l (l.getD p0 "")).getD i 0) 0 = i := by
  have hspec := host_loop_spec l
  obtain ⟨h1, -, -, -, h5⟩ := hspec
  have hmain := rank_loop_spec l.length (host_loop l).mpi_num_hosts (host_loop l).host2procs1
    (fun h => by rw [h5]; exact (List.sorted_lt_range _).filter _)
    (fun h x hx => by
      rw [h5] at hx
      exact List.mem_range.1 (List.mem_filter.1 hx).1)
    (fun h h2 hne x hx hx2 => by
      rw [h5] at hx hx2
      have e1 := (List.mem_filter.1 hx).2
      have e2 := (List.mem_filter.1 hx2).2
      simp only [decide_eq_true_eq] at e1 e2
      exact hne (e1.symm.trans e2))
    (hosts_before l (l.indexOf (l.getD p0 "")))
    (by rw [h1]; exact hosts_before_lt_total l p0 hp0)
  rw [host2procs1_eq_members l p0 hp0] at hmain
  exact hmain i hi

theorem length_host_members (l : List String) (s : String) :
    (host_members l s).length = l.count s := by
  have hl : l = (List.range l.length).map (fun q => l.getD q "") := by
    apply List.ext_getElem
    · simp
    · intro i h1 h2
      simp only [List.getElem_map, List.getElem_range]
      rw [List.getD_eq_getElem l "" h1]
  unfold host_members
  conv_rhs => rw [hl]
  rw [List.count, List.countP_map, List.countP_eq_length_filter]
  congr 1

theorem take_toFinset_card (l : List String) :
    ∀ n, n ≤ l.length → (l.take n).toFinset.card = hosts_before l n := by
  intro n
  induction n with
  | zero => intro _; simp [hosts_before]
  | succ k ih =>
    intro hk
    have hk2 : k < l.length := by omega
    have hmem : l.getD k "" ∈ l.take k ↔ l.indexOf (l.getD k "") < k := by
      constructor
      · intro hm
        have h1 : List.indexOf (l.getD k "") (l.take k ++ l.drop k) =
            List.indexOf (l.getD k "") (l.take k) := List.indexOf_append_of_mem hm
        rw [List.take_append_drop] at h1
        have h2 := List.indexOf_lt_length.2 hm
        have h3 : (l.take k).length ≤ k := by simp
        omega
      · intro hlt
        have h1 := getD_indexOf l (l.getD k "") (by omega)
        have h2 : (l.take k)[l.indexOf (l.getD k "")]? = some (l.getD k "") := by
          rw [List.getElem?_take_of_lt hlt, List.getElem?_eq_getElem (by omega)]
          rw [List.getD_eq_getElem l "" (by omega : l.indexOf (l.getD k "") < l.length)] at h1
          rw [h1]
        exact List.getElem?_mem h2
    rw [List.take_succ, List.getElem?_eq_getElem hk2, hosts_before_succ, ← ih (by omega)]
    have hget : l[k] = l.getD k "" := (List.getD_eq_getElem l "" hk2).symm
    rw [hget, List.toFinset_append]
    simp only [Option.toList_some, List.toFinset_cons, List.toFinset_nil, insert_emptyc_eq]
    have hle := indexOf_getD_le l k hk2
    by_cases hf : l.indexOf (l.getD k "") = k
    · rw [if_pos hf]
      have hnot : l.getD k "" ∉ (l.take k).toFinset := by
        rw [List.mem_toFinset, hmem]; omega
      rw [Finset.union_comm, ← Finset.insert_eq, Finset.card_insert_of_not_mem hnot]
    · rw [if_neg hf]
      have hin : l.getD k "" ∈ (l.take k).toFinset := by
        rw [List.mem_toFinset, hmem]; omega
      rw [Finset.union_comm, ← Finset.insert_eq, Finset.insert_eq_of_mem hin]
      rfl

/-- The number of hosts counted over the whole table is the number of distinct strings. -/
theorem hosts_before_length (l : List String) : hosts_before l l.length = l.dedup.length := by
  rw [← take_toFinset_card l l.length le_rfl, List.take_length, List.card_toFinset]

/-- Claim C3.  Take any process `p0` of a table of `N ≥ 1` host strings and list the members of
its host (the processes with the same host string, which are the processes with the same
`mpi_host_num`) in ascending global rank.  Their `mpi_proc_num_on_host` values are
`0, 1, ..., countOnHost-1` in that order, and every member's `mpi_num_procs_on_host` is the
number of processes whose host string equals that of the host. -/
theorem load_rank_on_host_dense (procnames : List String) (hN : 1 ≤ procnames.length)
    (p0 : Nat) (hp0 : p0 < procnames.length) :
    List.Sorted (fun a b : Nat => a < b) (host_members procnames (procnames.getD p0 "")) ∧
    (∀ q, q < procnames.length →
      (q ∈ host_members procnames (procnames.getD p0 "") ↔
        (mpi_host_mapping_t.load procnames q).mpi_host_num =
          (mpi_host_mapping_t.load procnames p0).mpi_host_num)) ∧
    (host_members procnames (procnames.getD p0 "")).map
        (fun p => (mpi_host_mapping_t.load procnames p).mpi_proc_num_on_host) =
      (List.range (host_members procnames (procnames.getD p0 "")).length).map
        (fun i : Nat => (i : Int)) ∧
    (∀ p ∈ host_members procnames (procnames.getD p0 ""),
      (mpi_host_mapping_t.load procnames p).mpi_num_procs_on_host =
        ((host_members procnames (procnames.getD p0 "")).length : Int)) ∧
    (host_members procnames (procnames.getD p0 "")).length =
      procnames.count (procnames.getD p0 "") := by
  refine ⟨(List.sorted_lt_range _).filter _, ?_, ?_, ?_, length_host_members _ _⟩
  · intro q hq
    show _ ↔ (((host_loop procnames).host_byproc.getD q 0 : Nat) : Int) =
      (((host_loop procnames).host_byproc.getD p0 0 : Nat) : Int)
    rw [host_byproc_eq procnames q hq, host_byproc_eq procnames p0 hp0, Int.ofNat_inj]
    unfold host_members
    rw [List.mem_filter, List.mem_range, decide_eq_true_eq]
    constructor
    · intro h
      rw [h.2]
    · intro h
      exact ⟨hq, hosts_before_inj procnames q p0 hq hp0 h⟩
  · apply List.ext_getElem
    · simp
    · intro i h1 h2
      have hi : i < (host_members procnames (procnames.getD p0 "")).length := by
        simpa using h1
      simp only [List.getElem_map, List.getElem_range]
      have := (rank_of_member procnames p0 hp0 i hi).2
      rw [List.getD_eq_getElem _ 0 hi] at this
      show (((rank_loop procnames.length (host_loop procnames).mpi_num_hosts
        (host_loop procnames).host2procs1).proc_num_on_host_byproc.getD _ 0 : Nat) : Int) = _
      rw [this]
  · intro p hp
    obtain ⟨i, hi, hpi⟩ := List.mem_iff_getElem.1 hp
    have := (rank_of_member procnames p0 hp0 i hi).1
    rw [List.getD_eq_getElem _ 0 hi, hpi] at this
    show (((rank_loop procnames.length (host_loop procnames).mpi_num_hosts
      (host_loop procnames).host2procs1).num_procs_on_host_byproc.getD p 0 : Nat) : Int) = _
    rw [this]

/-- Claim C3, on the table b, a, b, c, a at process 1: the members of host "a" are processes 1
and 4, numbered 0 and 1, each with 2 processes on the host. -/
theorem load_rank_on_host_dense_witness :
    host_members ["b", "a", "b", "c", "a"] "a" = [1, 4] ∧
    (host_members ["b", "a", "b", "c", "a"] (["b", "a", "b", "c", "a"].getD 1 "")).map
        (fun p => (mpi_host_mapping_t.load ["b", "a", "b", "c", "a"] p).mpi_proc_num_on_host) =
      (List.range
        (host_members ["b", "a", "b", "c", "a"] (["b", "a", "b", "c", "a"].getD 1 "")).length).map
        (fun i : Nat => (i : Int)) ∧
    (mpi_host_mapping_t.load ["b", "a", "b", "c", "a"] 4).mpi_proc_num_on_host = 1 ∧
    (mpi_host_mapping_t.load ["b", "a", "b", "c", "a"] 4).mpi_num_procs_on_host = 2 :=
  ⟨by decide,
    (load_rank_on_host_dense ["b", "a", "b", "c", "a"] (by decide) 1 (by decide)).2.2.1,
    by decide, by decide⟩

/-- Claim C4.  For a table of `N ≥ 1` host strings, the `mpi_host_num` of process `p` is the
number of distinct host strings whose first occurrence is at a rank lower than the first
occurrence of the string of `p`; two processes have the same `mpi_host_num` exactly when their
host strings are equal; process 0 has `mpi_host_num = 0`; and `mpi_num_hosts` is the number of
distinct strings. -/
theorem load_host_num_first_appearance (procnames : List String) (hN : 1 ≤ procnames.length) :
    (∀ p, p < procnames.length →
      (mpi_host_mapping_t.load procnames p).mpi_host_num =
        (hosts_before procnames (procnames.indexOf (procnames.getD p "")) : Int)) ∧
    (∀ p q, p < procnames.length → q < procnames.length →
      ((mpi_host_mapping_t.load procnames p).mpi_host_num =
          (mpi_host_mapping_t.load procnames q).mpi_host_num ↔
        procnames.getD p "" = procnames.getD q "")) ∧
    (mpi_host_mapping_t.load procnames 0).mpi_host_num = 0 ∧
    (∀ p, (mpi_host_mapping_t.load procnames p).mpi_num_hosts =
      (procnames.dedup.length : Int)) := by
  have hhost : ∀ p, p < procnames.length →
      (mpi_host_mapping_t.load procnames p).mpi_host_num =
        (hosts_before procnames (procnames.indexOf (procnames.getD p "")) : Int) := by
    intro p hp
    show (((host_loop procnames).host_byproc.getD p 0 : Nat) : Int) = _
    rw [host_byproc_eq procnames p hp]
  refine ⟨hhost, ?_, ?_, ?_⟩
  · intro p q hp hq
    rw [hhost p hp, hhost q hq, Int.ofNat_inj]
    constructor
    · exact hosts_before_inj procnames p q hp hq
    · intro h
      rw [h]
  · rw [hhost 0 (by omega)]
    have h0 : procnames.indexOf (procnames.getD 0 "") = 0 := by
      have := indexOf_getD_le procnames 0 (by omega)
      omega
    rw [h0]
    rfl
  · intro p
    show (((host_loop procnames).mpi_num_hosts : Nat) : Int) = _
    rw [(host_loop_spec procnames).1, hosts_before_length]

/-- Claim C4, on the table b, a, b, c, a: the host numbers are 0, 1, 0, 2, 1 (first appearance
order, not lexicographic) and there are 3 hosts. -/
theorem load_host_num_first_appearance_witness :
    (List.range 5).map
        (fun p => (mpi_host_mapping_t.load ["b", "a", "b", "c", "a"] p).mpi_host_num) =
      [0, 1, 0, 2, 1] ∧
    (mpi_host_mapping_t.load ["b", "a", "b", "c", "a"] 0).mpi_host_num = 0 ∧
    (∀ p, (mpi_host_mapping_t.load ["b", "a", "b", "c", "a"] p).mpi_num_hosts =
      ((["b", "a", "b", "c", "a"] : List String).dedup.length : Int)) :=
  ⟨by decide,
    (load_host_num_first_appearance ["b", "a", "b", "c", "a"] (by decide)).2.2.1,
    (load_host_num_first_appearance ["b", "a", "b", "c", "a"] (by decide)).2.2.2⟩

/-! ## Processes and cores -/

/-- When `smtThreadsUsed` divides `threadsPerProcess`, the core of a thread is the first core of
its process plus the quotient of its thread index, and that quotient is below
`threadsPerProcess / smtThreadsUsed`. -/
theorem core_num_of_even (T s p t : Int) (hs : 0 < s) (hT : 1 ≤ T) (heven : T % s = 0)
    (ht : 0 ≤ t) (htT : t < T) :
    (T * p + t) / s = p * (T / s) + t / s ∧ 0 ≤ t / s ∧ t / s < T / s ∧ 0 < T / s := by
  have hTs : s * (T / s) = T := by
    have := Int.ediv_add_emod T s
    rw [heven] at this
    linarith
  have hq : t / s < T / s := by
    apply Int.ediv_lt_of_lt_mul hs
    rw [mul_comm, hTs]
    exact htT
  have hq0 : 0 ≤ t / s := Int.ediv_nonneg ht (le_of_lt hs)
  refine ⟨?_, hq0, hq, by omega⟩
  have e : T * p + t = t + s * (p * (T / s)) := by
    have : T * p = s * (T / s) * p := by rw [hTs]
    rw [this]
    ring
  rw [e, Int.add_mul_ediv_left _ _ (ne_of_gt hs)]
  ring

/-- Claim C11.  When `threadsPerProcess % smtThreadsUsed == 0` (the uneven-division warning of
`load` is absent), `set_bindings` returns for every thread, two threads of processes with
different rank on the host receive different `core_num`, the `core_num` of every thread of the
process with rank `p` lies in the `threadsPerProcess / smtThreadsUsed` consecutive cores starting
at `p * (threadsPerProcess / smtThreadsUsed)`, and each of those cores is the `core_num` of some
thread of the process. -/
theorem set_bindings_processes_disjoint_cores
    (coreCount pusPerCore threadsPerProcess smtThreadsUsed : Int)
    (hm1 hm2 : mpi_host_mapping_t) (t1 t2 : Int)
    (hcore : 0 < coreCount) (hpus : 1 ≤ pusPerCore)
    (hcount : 1 ≤ hm1.mpi_num_procs_on_host)
    (hsame : hm2.mpi_num_procs_on_host = hm1.mpi_num_procs_on_host)
    (hT : 1 ≤ threadsPerProcess)
    (hsmt : divup (threadsPerProcess * hm1.mpi_num_procs_on_host) coreCount =
      some smtThreadsUsed)
    (heven : threadsPerProcess.tmod smtThreadsUsed = 0)
    (hp1 : 0 ≤ hm1.mpi_proc_num_on_host)
    (hp1c : hm1.mpi_proc_num_on_host < hm1.mpi_num_procs_on_host)
    (hp2 : 0 ≤ hm2.mpi_proc_num_on_host)
    (hp2c : hm2.mpi_proc_num_on_host < hm2.mpi_num_procs_on_host)
    (ht1 : 0 ≤ t1) (ht1T : t1 < threadsPerProcess)
    (ht2 : 0 ≤ t2) (ht2T : t2 < threadsPerProcess) :
    0 < threadsPerProcess.tdiv smtThreadsUsed ∧
    ∃ b1 b2 : thread_target,
      set_bindings coreCount (coreCount * pusPerCore) hm1 threadsPerProcess t1 = some b1 ∧
      set_bindings coreCount (coreCount * pusPerCore) hm2 threadsPerProcess t2 = some b2 ∧
      (hm1.mpi_proc_num_on_host ≠ hm2.mpi_proc_num_on_host → b1.core_num ≠ b2.core_num) ∧
      hm1.mpi_proc_num_on_host * threadsPerProcess.tdiv smtThreadsUsed ≤ b1.core_num ∧
      b1.core_num < (hm1.mpi_proc_num_on_host + 1) * threadsPerProcess.tdiv smtThreadsUsed ∧
      (∀ c : Int, hm1.mpi_proc_num_on_host * threadsPerProcess.tdiv smtThreadsUsed ≤ c →
        c < (hm1.mpi_proc_num_on_host + 1) * threadsPerProcess.tdiv smtThreadsUsed →
        ∃ (t : Int) (b : thread_target), 0 ≤ t ∧ t < threadsPerProcess ∧
          set_bindings coreCount (coreCount * pusPerCore) hm1 threadsPerProcess t = some b ∧
          b.core_num = c) := by
  have hTC : 1 ≤ threadsPerProcess * hm1.mpi_num_procs_on_host := by nlinarith
  rw [divup_eq _ _ (le_trans zero_le_one hTC) hcore] at hsmt
  simp only [Option.some.injEq] at hsmt
  have hs : 0 < smtThreadsUsed := by
    rw [← hsmt]
    exact smt_used_pos _ _ hTC hcore
  have hT0 : 0 ≤ threadsPerProcess := by omega
  rw [Int.tmod_eq_emod hT0 (le_of_lt hs)] at heven
  rw [Int.tdiv_eq_ediv hT0 (le_of_lt hs)]
  have e1 := set_bindings_eq coreCount pusPerCore hm1 threadsPerProcess t1 hcore hpus hcount hT
    hp1 ht1
  have e2 := set_bindings_eq coreCount pusPerCore hm2 threadsPerProcess t2 hcore hpus
    (by rw [hsame]; exact hcount) hT hp2 ht2
  rw [hsame] at e2
  rw [hsmt] at e1 e2
  obtain ⟨c1, q1, q1m, hm0⟩ := core_num_of_even threadsPerProcess smtThreadsUsed
    hm1.mpi_proc_num_on_host t1 hs hT heven ht1 ht1T
  obtain ⟨c2, q2, q2m, -⟩ := core_num_of_even threadsPerProcess smtThreadsUsed
    hm2.mpi_proc_num_on_host t2 hs hT heven ht2 ht2T
  refine ⟨hm0, _, _, e1, e2, ?_, ?_, ?_, ?_⟩
  · intro hne hc
    simp only at hc
    rw [c1, c2] at hc
    exact hne (quot_rem_unique _ _ _ _ _ q1 q1m q2 q2m hc).1
  · simp only
    rw [c1]
    omega
  · simp only
    rw [c1]
    linarith
  · intro c hlo hhi
    have hTs : smtThreadsUsed * (threadsPerProcess / smtThreadsUsed) = threadsPerProcess := by
      have := Int.ediv_add_emod threadsPerProcess smtThreadsUsed
      rw [heven] at this
      linarith
    have hd0 : 0 ≤ c - hm1.mpi_proc_num_on_host * (threadsPerProcess / smtThreadsUsed) := by
      linarith
    have hdm : c - hm1.mpi_proc_num_on_host * (threadsPerProcess / smtThreadsUsed) <
        threadsPerProcess / smtThreadsUsed := by linarith
    have ht0 : 0 ≤ (c - hm1.mpi_proc_num_on_host * (threadsPerProcess / smtThreadsUsed)) *
        smtThreadsUsed := mul_nonneg hd0 (le_of_lt hs)
    have htT : (c - hm1.mpi_proc_num_on_host * (threadsPerProcess / smtThreadsUsed)) *
        smtThreadsUsed < threadsPerProcess := by
      calc (c - hm1.mpi_proc_num_on_host * (threadsPerProcess / smtThreadsUsed)) *
            smtThreadsUsed
          < (threadsPerProcess / smtThreadsUsed) * smtThreadsUsed :=
            mul_lt_mul_of_pos_right hdm hs
        _ = threadsPerProcess := by rw [mul_comm, hTs]
    have e3 := set_bindings_eq coreCount pusPerCore hm1 threadsPerProcess
      ((c - hm1.mpi_proc_num_on_host * (threadsPerProcess / smtThreadsUsed)) * smtThreadsUsed)
      hcore hpus hcount hT hp1 ht0
    rw [hsmt] at e3
    refine ⟨_, _, ht0, htT, e3, ?_⟩
    simp only
    rw [(core_num_of_even threadsPerProcess smtThreadsUsed hm1.mpi_proc_num_on_host _ hs hT
      heven ht0 htT).1, Int.mul_ediv_cancel _ (ne_of_gt hs)]
    ring

/-- Claim C11, at 2 processes of 4 threads on 4 cores with 2 PUs each (`smtThreadsUsed = 2`,
`4 % 2 = 0`): thread 3 of rank 0 and thread 0 of rank 1; each process occupies 2 cores. -/
theorem set_bindings_processes_disjoint_cores_witness :
    0 < (4 : Int).tdiv 2 ∧
    ∃ b1 b2 : thread_target,
      set_bindings 4 (4 * 2) ⟨2, 0, 1, 0, 2, 0⟩ 4 3 = some b1 ∧
      set_bindings 4 (4 * 2) ⟨2, 1, 1, 0, 2, 1⟩ 4 0 = some b2 ∧
      ((0 : Int) ≠ 1 → b1.core_num ≠ b2.core_num) ∧
      (0 : Int) * (4 : Int).tdiv 2 ≤ b1.core_num ∧
      b1.core_num < ((0 : Int) + 1) * (4 : Int).tdiv 2 ∧
      (∀ c : Int, (0 : Int) * (4 : Int).tdiv 2 ≤ c →
        c < ((0 : Int) + 1) * (4 : Int).tdiv 2 →
        ∃ (t : Int) (b : thread_target), 0 ≤ t ∧ t < 4 ∧
          set_bindings 4 (4 * 2) ⟨2, 0, 1, 0, 2, 0⟩ 4 t = some b ∧
          b.core_num = c) :=
  set_bindings_processes_disjoint_cores 4 2 4 2 ⟨2, 0, 1, 0, 2, 0⟩ ⟨2, 1, 1, 0, 2, 1⟩ 3 0
    (by decide) (by decide) (by decide) rfl (by decide) (by decide) (by decide) (by decide)
    (by decide) (by decide) (by decide) (by decide) (by decide) (by decide) (by decide)

end SystemTopology
